import Mathlib

/-!
Verification development for the nanokv storage engine.

Shallow embedding of the parts of the engine the claims refer to:
byte-level key and write-batch codecs (src/storage/src/key.rs), the memtable
(src/storage/src/kv/memtable.rs), the frozen memtable (src/storage/src/kv/imemtable.rs),
the storage facade write path (src/storage/src/storage.rs), the WAL segment framing
(src/storage/src/log/wal.rs, src/storage/src/log/replayer.rs, src/storage/src/util/crc.rs),
the SST binary search (src/storage/src/kv/sst/raw_sst.rs), the merged scan iterator
(src/storage/src/iterator.rs), and the snapshot refcounts of the version set
(src/storage/src/kv/manifest.rs).

Bytes are modelled as natural numbers; every encoder in the engine only produces
values below 256.  Multi-byte integers are little-endian, as in the source
(byteorder LE).  Machine-integer wraparound is modelled with explicit mod 2^w.
-/

namespace NanoKV

/-! ## Byte helpers -/

/-- Little-endian read of a byte list, as done by read_u16/u32/u64 LE in the source. -/
def fromLEBytes : List Nat → Nat
  | [] => 0
  | b :: bs => b + 256 * fromLEBytes bs

/-- Little-endian encoding of a natural number into k bytes (write_uXX LE);
    values are truncated mod 256^k exactly as the fixed-width writes do. -/
def toLEBytes : Nat → Nat → List Nat
  | 0, _ => []
  | k + 1, n => n % 256 :: toLEBytes k (n / 256)

/-! ## Key codec (src/storage/src/key.rs) -/

/-- KeyType in key.rs: Set = 0, Del = 1. -/
inductive KeyType where
  | set
  | del
deriving DecidableEq, Repr

def KeyType.toU8 : KeyType → Nat
  | .set => 0
  | .del => 1

/-- InternalKey::new: user_key bytes followed by the packed 8-byte tail
    ((type << 56) | (seq & 0xFFFF_FFFF_FFFF)), little-endian. -/
def internalKeyNew (userKey : List Nat) (seq : Nat) (ty : KeyType) : List Nat :=
  userKey ++ toLEBytes 8 ((ty.toU8 <<< 56) ||| (seq &&& 0xFFFFFFFFFFFF))

/-- The packed 8-byte tail of an internal key, decoded (key.rs reads the
    last 8 bytes as a little-endian u64). -/
def ikTail (k : List Nat) : Nat := fromLEBytes (k.drop (k.length - 8))

/-- InternalKey::user_key_slice: everything but the last 8 bytes. -/
def ikUserKey (k : List Nat) : List Nat := k.take (k.length - 8)

/-- KvIteratorItem::seq for InternalKey: tail & 0xFFFF_FFFF_FFFF. -/
def ikSeq (k : List Nat) : Nat := ikTail k &&& 0xFFFFFFFFFFFF

/-- InternalKey::key_type: tail >> 56. -/
def ikKeyType (k : List Nat) : Nat := ikTail k >>> 56

/-- InternalKey ordering (PartialOrd in key.rs): ascending user key, then
    descending sequence number. -/
def internalKeyLe (a b : List Nat) : Prop :=
  ikUserKey a < ikUserKey b ∨ (ikUserKey a = ikUserKey b ∧ ikSeq b ≤ ikSeq a)

instance : DecidableRel internalKeyLe := fun a b =>
  inferInstanceAs (Decidable (_ ∨ _))

/-! ## Error type (src/storage/src/err.rs)

The io error kinds the engine distinguishes.  StorageError::DataCorrupt is
constructed in kv/sst/raw_sst.rs (index out of range); the enum declaration in
err.rs lists KeyNotExist, Unknown, ValueTooLarge and Io. -/

inductive IoKind where
  | notFound
  | unexpectedEof
  | invalidData
  | other
deriving DecidableEq, Repr

inductive StorageError where
  | keyNotExist
  | unknown
  | valueTooLarge
  | dataCorrupt
  | io (kind : IoKind)
deriving DecidableEq, Repr

/-! ## Write batch (src/storage/src/key.rs) -/

/-- WriteBatchBuilder: accumulated bytes (first 16 bytes reserved for the
    count/seq header), operation count and seq field. -/
structure WriteBatchBuilder where
  bytes : List Nat
  total : Nat
  seq : Nat
deriving DecidableEq, Repr

/-- WriteBatchBuilder::new: 16 zero header bytes, total 0, seq 0. -/
def WriteBatchBuilder.new : WriteBatchBuilder :=
  { bytes := toLEBytes 8 0 ++ toLEBytes 8 0, total := 0, seq := 0 }

/-- WriteBatchBuilder::add_internal: refuse values above 10 MiB (returning the
    builder untouched together with ValueTooLarge, as the Rust method returns
    early before mutating self); otherwise append
    total_len (u32 LE), key_len (u32 LE), key bytes, value bytes and bump total. -/
def WriteBatchBuilder.addInternal (b : WriteBatchBuilder) (key value : List Nat) :
    WriteBatchBuilder × Option StorageError :=
  if value.length > 1024 * 1024 * 10 then (b, some .valueTooLarge)
  else
    ({ b with
        bytes := b.bytes ++ toLEBytes 4 (key.length + value.length) ++
          toLEBytes 4 key.length ++ key ++ value
        total := b.total + 1 }, none)

/-- WriteBatchBuilder::set: add_internal with a Set internal key at seq 0. -/
def WriteBatchBuilder.set (b : WriteBatchBuilder) (key value : List Nat) :
    WriteBatchBuilder × Option StorageError :=
  b.addInternal (internalKeyNew key 0 .set) value

/-- WriteBatchBuilder::del: add_internal with a Del internal key and empty value. -/
def WriteBatchBuilder.del (b : WriteBatchBuilder) (key : List Nat) :
    WriteBatchBuilder × Option StorageError :=
  b.addInternal (internalKeyNew key 0 .del) []

/-- WriteBatchBuilder::set_seq. -/
def WriteBatchBuilder.setSeq (b : WriteBatchBuilder) (seq : Nat) : WriteBatchBuilder :=
  { b with seq := seq }

/-- WriteBatch: frozen bytes plus the count and seq recorded at build time. -/
structure WriteBatch where
  bytes : List Nat
  total : Nat
  seq : Nat
deriving DecidableEq, Repr

/-- WriteBatchBuilder::build: overwrite the first 16 bytes with
    count (u64 LE) and seq (u64 LE). -/
def WriteBatchBuilder.build (b : WriteBatchBuilder) : WriteBatch :=
  { bytes := toLEBytes 8 b.total ++ toLEBytes 8 b.seq ++ b.bytes.drop 16
    total := b.total
    seq := b.seq }

/-- The count field of a serialized batch header (first 8 bytes, u64 LE). -/
def countField (bytes : List Nat) : Nat := fromLEBytes (bytes.take 8)

/-- The seq field of a serialized batch header (bytes 8..16, u64 LE). -/
def seqField (bytes : List Nat) : Nat := fromLEBytes ((bytes.drop 8).take 8)

/-! ## Memtable (src/storage/src/kv/memtable.rs) -/

/-- LookupKeyValue: an internal key together with its value (the source packs
    both into one byte blob with a length prefix; the accessors recover exactly
    these two components). -/
structure LookupKeyValue where
  key : List Nat
  value : List Nat
deriving DecidableEq, Repr

/-- LookupKeyValue ordering = ordering of the contained internal keys. -/
def lkvLe (a b : LookupKeyValue) : Prop := internalKeyLe a.key b.key

instance : DecidableRel lkvLe := fun a b =>
  inferInstanceAs (Decidable (internalKeyLe a.key b.key))

/-- Memtable: the skiplist is modelled as a list ordered by internal key,
    with the byte counter and the observed min/max sequences. -/
structure Memtable where
  list : List LookupKeyValue
  totalBytes : Nat
  minSeq : Nat
  maxSeq : Nat
  number : Nat
deriving DecidableEq, Repr

/-- Memtable::new. -/
def Memtable.new (number : Nat) : Memtable :=
  { list := [], totalBytes := 0, minSeq := 0, maxSeq := 0, number := number }

/-- Memtable::full: entry count at least 16 Ki, or total bytes strictly above
    10 MiB. -/
def Memtable.full (m : Memtable) : Bool :=
  m.list.length ≥ 1024 * 16 || m.totalBytes > 1024 * 1024 * 10

/-- Memtable::set: record min_seq on first insert, add the value length to the
    byte counter, insert the pair into the ordered skiplist. -/
def Memtable.set (m : Memtable) (key value : List Nat) : Memtable :=
  let minSeq := if m.list.isEmpty then ikSeq key else m.minSeq
  { m with
      list := List.orderedInsert lkvLe ⟨key, value⟩ m.list
      totalBytes := m.totalBytes + value.length
      minSeq := minSeq }

/-- A sequence of Memtable::set calls (the write path of a memtable before it
    fills up), used to relate full() to the insert history. -/
def Memtable.applySets (m : Memtable) (ops : List (List Nat × List Nat)) : Memtable :=
  ops.foldl (fun acc p => acc.set p.1 p.2) m

/-- Memtable::get: walk the range of entries whose user key equals the query
    (the skiplist range between lookup(key, u64::MAX) and lookup(key, 0));
    on the ordered list this range is exactly the entries with that user key,
    in descending sequence order.  With a snapshot, return the first entry whose
    seq is at most the snapshot sequence; without, return the first entry. -/
def Memtable.get (m : Memtable) (snapshot : Option Nat) (key : List Nat) :
    Except StorageError (List Nat × List Nat) :=
  let range := m.list.filter (fun e => decide (ikUserKey e.key = key))
  match snapshot with
  | some s =>
    match range.find? (fun e => decide (ikSeq e.key ≤ s)) with
    | some e => .ok (e.key, e.value)
    | none => .error .keyNotExist
  | none =>
    match range.head? with
    | some e => .ok (e.key, e.value)
    | none => .error .keyNotExist

/-- Memtable::set_batch as it stands in kv/memtable.rs: the body is just
    Ok(()) - it inserts nothing and ignores the batch. -/
def Memtable.setBatch (m : Memtable) (_b : WriteBatch) : Memtable × Option StorageError :=
  (m, none)

/-! ## Storage facade write path (src/storage/src/storage.rs) -/

/-- The storage state visible to Storage::set_batch: the manifest sequence
    allocator (VersionSet.last_seq behind allocate_seq), the WAL (a list of
    appended batch records: BatchLogSerializer::write emits entry.bytes),
    and the active memtable. -/
structure StorageState where
  lastSeq : Nat
  wal : List (List Nat)
  memtable : Memtable
deriving DecidableEq, Repr

/-- Storage::set_batch: allocate_seq(batch.count()) returns the current
    sequence and advances it; the batch bytes are appended to the WAL
    unchanged; the memtable insert is Memtable::set_batch; the allocated
    sequence is returned.  (The memtable-full flush does not touch the
    sequence allocator, the WAL record or the batch and is omitted.) -/
def Storage.setBatch (st : StorageState) (batch : WriteBatch) : StorageState × Nat :=
  let curSeq := st.lastSeq
  let afterAlloc : StorageState := { st with lastSeq := st.lastSeq + batch.total }
  let afterWal : StorageState := { afterAlloc with wal := afterAlloc.wal ++ [batch.bytes] }
  let m := (afterWal.memtable.setBatch batch).1
  ({ afterWal with memtable := m }, curSeq)

/-! ## SST binary search (src/storage/src/kv/sst/raw_sst.rs)

RawSSTReaderInner::lower_bound / upper_bound over the per-record user keys,
generic in the key type exactly as the source is generic in the byte-slice
comparison; the SST claims are stated on byte-list keys. -/

/-- The branchless lower_bound loop: while size > 1, compare the user key at
    base + size/2 against the query and move base forward when it is Less. -/
def lbLoop {α : Type} [LinearOrder α] [Inhabited α]
    (keys : List α) (q : α) (base size : Nat) : Nat :=
  if size ≤ 1 then base
  else
    lbLoop keys q
      (if keys.getD (base + size / 2) default < q then base + size / 2 else base)
      (size - size / 2)
  termination_by size
  decreasing_by omega

/-- RawSSTReaderInner::lower_bound: 0 on an empty table, otherwise the loop
    result plus one when the key there is still Less than the query. -/
def sstLowerBound {α : Type} [LinearOrder α] [Inhabited α]
    (keys : List α) (q : α) : Nat :=
  if keys.length = 0 then 0
  else
    let base := lbLoop keys q 0 keys.length
    base + if keys.getD base default < q then 1 else 0

/-- The upper_bound loop: base stays put only when the probed key is Greater
    than the query. -/
def ubLoop {α : Type} [LinearOrder α] [Inhabited α]
    (keys : List α) (q : α) (base size : Nat) : Nat :=
  if size ≤ 1 then base
  else
    ubLoop keys q
      (if q < keys.getD (base + size / 2) default then base else base + size / 2)
      (size - size / 2)
  termination_by size
  decreasing_by omega

/-- RawSSTReaderInner::upper_bound: 0 on an empty table, otherwise the loop
    result plus one when the key there is not Greater than the query. -/
def sstUpperBound {α : Type} [LinearOrder α] [Inhabited α]
    (keys : List α) (q : α) : Nat :=
  if keys.length = 0 then 0
  else
    let base := ubLoop keys q 0 keys.length
    base + if q < keys.getD base default then 0 else 1

/-! ## Frozen memtable (src/storage/src/kv/imemtable.rs) -/

/-- KvEntry as used by Imemtable: user key, version (sequence) and value. -/
structure KvEntry where
  key : List Nat
  version : Nat
  value : List Nat
deriving DecidableEq, Repr

/-- The entry order of a memtable feeding Imemtable::new: ascending user key,
    descending version for equal user keys. -/
def kvEntryBefore (a b : KvEntry) : Prop :=
  a.key < b.key ∨ (a.key = b.key ∧ b.version < a.version)

instance : DecidableRel kvEntryBefore := fun a b =>
  inferInstanceAs (Decidable (_ ∨ _))

/-- The retain filter inside Imemtable::new: walk entries in memtable order
    with a set of user keys already seen below the reserved version; an entry
    below the reserved version is kept only when its key is not yet in the set
    (recording it); entries at or above the reserved version are always kept. -/
def imemtableRetain (reservedVersion : Nat) :
    List KvEntry → List (List Nat) → List KvEntry
  | [], _ => []
  | e :: rest, seen =>
    if e.version < reservedVersion then
      if e.key ∈ seen then imemtableRetain reservedVersion rest seen
      else e :: imemtableRetain reservedVersion rest (e.key :: seen)
    else e :: imemtableRetain reservedVersion rest seen

/-- Imemtable::new, restricted to the retained entry list (the HashSet starts
    empty). -/
def imemtableNew (keys : List KvEntry) (reservedVersion : Nat) : List KvEntry :=
  imemtableRetain reservedVersion keys []

/-! ## VersionSet snapshot refcounts (src/storage/src/kv/manifest.rs) -/

/-- The snapshot_versions BTreeMap modelled as an association list with
    strictly ascending keys.  current_snapshot_version:
    entry(ver).and_modify(increment).or_insert(1). -/
def snapInsert (ver : Nat) : List (Nat × Nat) → List (Nat × Nat)
  | [] => [(ver, 1)]
  | (k, c) :: rest =>
    if ver < k then (ver, 1) :: (k, c) :: rest
    else if ver = k then (k, c + 1) :: rest
    else (k, c) :: snapInsert ver rest

/-- release_snapshot_version: entry(ver).and_modify(decrement, flag when the
    count reaches zero).or_default(), then remove the flagged entry; when the
    key is absent, or_default inserts a zero-count entry. -/
def snapRelease (ver : Nat) : List (Nat × Nat) → List (Nat × Nat)
  | [] => [(ver, 0)]
  | (k, c) :: rest =>
    if ver < k then (ver, 0) :: (k, c) :: rest
    else if ver = k then (if c - 1 = 0 then rest else (k, c - 1) :: rest)
    else (k, c) :: snapRelease ver rest

/-- The refcount recorded for a sequence in the snapshot map (0 when absent). -/
def snapCount (l : List (Nat × Nat)) (s : Nat) : Nat :=
  match l.find? (fun p => decide (p.1 = s)) with
  | some p => p.2
  | none => 0

/-- The VersionSet fields relevant to snapshot tracking. -/
structure VersionSetModel where
  lastSeq : Nat
  snapshotVersions : List (Nat × Nat)
deriving DecidableEq, Repr

/-- VersionSet::current_snapshot_version: bump the refcount of last_seq and
    return it. -/
def VersionSetModel.currentSnapshotVersion (vs : VersionSetModel) :
    VersionSetModel × Nat :=
  ({ vs with snapshotVersions := snapInsert vs.lastSeq vs.snapshotVersions },
   vs.lastSeq)

/-- VersionSet::release_snapshot_version. -/
def VersionSetModel.releaseSnapshotVersion (vs : VersionSetModel) (ver : Nat) :
    VersionSetModel :=
  { vs with snapshotVersions := snapRelease ver vs.snapshotVersions }

def U64MAX : Nat := 2 ^ 64 - 1

/-- Manifest::oldest_snapshot_version: the first (smallest) key of the
    BTreeMap, or u64::MAX when the map is empty. -/
def VersionSetModel.oldestSnapshotVersion (vs : VersionSetModel) : Nat :=
  match vs.snapshotVersions with
  | [] => U64MAX
  | (k, _) :: _ => k

/-- The minimum sequence among snapshots whose refcount is positive, or
    u64::MAX when there is none (the quantity the spec says
    oldest_snapshot_sequence computes). -/
def oldestSpec (vs : VersionSetModel) : Nat :=
  ((vs.snapshotVersions.filter (fun p => 0 < p.2)).map Prod.fst).foldr min U64MAX

/-- Interleavings of snapshot traffic through the VersionSet: last_seq moves
    (allocate_seq / VersionChanged), snapshots are taken at the current
    last_seq, and a release always pairs with an outstanding snapshot (the
    SnapshotGuard drop discipline).  The multiset carries the outstanding
    snapshot sequences. -/
inductive SnapReach : VersionSetModel → Multiset Nat → Prop where
  | init : SnapReach { lastSeq := 0, snapshotVersions := [] } 0
  | alloc (n : Nat) {vs : VersionSetModel} {out : Multiset Nat} :
      n < 2 ^ 64 → SnapReach vs out → SnapReach { vs with lastSeq := n } out
  | take {vs : VersionSetModel} {out : Multiset Nat} :
      SnapReach vs out →
      SnapReach vs.currentSnapshotVersion.1 (vs.lastSeq ::ₘ out)
  | release (ver : Nat) {vs : VersionSetModel} {out : Multiset Nat} :
      SnapReach vs out → ver ∈ out →
      SnapReach (vs.releaseSnapshotVersion ver) (out.erase ver)

/-! ## WAL segment framing (src/storage/src/log/wal.rs, log/replayer.rs,
    log/mod.rs, util/crc.rs) -/

def SEGMENT_SIZE : Nat := 1024 * 32

/-- One division step of the reflected CRC-32 (polynomial 0xEDB88320), the
    checksum computed by the crc32fast crate. -/
def crc32UpdateBit (crc : Nat) : Nat :=
  if crc &&& 1 = 1 then (crc >>> 1) ^^^ 0xEDB88320 else crc >>> 1

/-- Fold one byte into the CRC state. -/
def crc32UpdateByte (crc b : Nat) : Nat :=
  crc32UpdateBit^[8] (crc ^^^ (b &&& 0xFF))

/-- CRC-32 of a byte list (init 0xFFFFFFFF, final xor 0xFFFFFFFF). -/
def crc32 (l : List Nat) : Nat :=
  (l.foldl crc32UpdateByte 0xFFFFFFFF) ^^^ 0xFFFFFFFF

/-- crc_mask in util/crc.rs: rotate((crc >> 15) | (crc << 17)) then
    wrapping_add 0xa282ead8, all in u32 arithmetic. -/
def crcMask (crc : Nat) : Nat :=
  (((crc >>> 15) ||| ((crc <<< 17) % 2 ^ 32)) + 0xa282ead8) % 2 ^ 32

/-- crc_unmask: wrapping_sub 0xa282ead8 then the inverse rotation. -/
def crcUnmask (m : Nat) : Nat :=
  let rot := (m + 2 ^ 32 - 0xa282ead8) % 2 ^ 32
  (rot >>> 17) ||| ((rot <<< 15) % 2 ^ 32)

/-- Segment header after the crc field: flags, reserved 0, payload length
    (u16 LE). -/
def segmentHeaderTail (flags len : Nat) : List Nat :=
  [flags, 0] ++ toLEBytes 2 len

/-- SegmentWriter::flush_segment: masked crc over the header (crc zeroed) and
    the first length payload bytes, then header, payload and padding up to the
    segment size.  The padding carries no information (the reader never looks
    past length; the cache is zero-initialised at rotate) and is modelled as
    zeros. -/
def mkSegment (segSize flags : Nat) (payload : List Nat) : List Nat :=
  let crc := crcMask (crc32 (toLEBytes 4 0 ++ segmentHeaderTail flags payload.length ++ payload))
  toLEBytes 4 crc ++ segmentHeaderTail flags payload.length ++ payload ++
    List.replicate (segSize - (8 + payload.length)) 0

/-- SegmentWriter::write: split the record into payload chunks of at most
    segment_size - 8 bytes (a fresh segment is begun only when the current one
    is exactly full and more bytes remain, so a record that is a multiple of
    the capacity has no empty trailing chunk).  Structured with fuel so the
    definition computes by structural recursion; payload.length units always
    suffice since every step consumes cap > 0 bytes. -/
def chunkPayloadAux (cap : Nat) : Nat → List Nat → List (List Nat)
  | 0, payload => [payload]
  | fuel + 1, payload =>
    if payload.length ≤ cap ∨ cap = 0 then [payload]
    else payload.take cap :: chunkPayloadAux cap fuel (payload.drop cap)

def chunkPayload (cap : Nat) (payload : List Nat) : List (List Nat) :=
  chunkPayloadAux cap payload.length payload

/-- Flags from log/mod.rs: FULL = 1, BEGIN = 2, CONTINUE = 3, LAST = 4.
    flush_segment picks FULL/BEGIN for segment_index 0 and LAST/CONTINUE
    afterwards, the last flush coming from flush_all. -/
def writeChunks (segSize : Nat) : Bool → List (List Nat) → List Nat
  | _, [] => []
  | first, [c] => mkSegment segSize (if first then 1 else 4) c
  | first, c :: c2 :: rest =>
    mkSegment segSize (if first then 2 else 3) c ++
      writeChunks segSize false (c2 :: rest)

/-- One LogWriter::append: each append starts a fresh SegmentWriter, so every
    record begins at a segment boundary and flush_all terminates it. -/
def writeRecord (segSize : Nat) (payload : List Nat) : List Nat :=
  writeChunks segSize true (chunkPayload (segSize - 8) payload)

/-- A log file: the concatenation of the appended records. -/
def writeLog (segSize : Nat) (records : List (List Nat)) : List Nat :=
  (records.map (writeRecord segSize)).join

/-- SegmentReader state: remaining input, the done flag and the flags of the
    previously read segment (0 before the first pre_read). -/
structure SegReaderState where
  input : List Nat
  done : Bool
  flags : Nat
deriving DecidableEq, Repr

/-- SegmentReader::pre_read: read one whole segment (UnexpectedEof on a short
    tail), give up with UnexpectedEof on zero flags, check the masked crc over
    the header with zeroed crc field plus length payload bytes, then check the
    flag transition; returns the new state and the segment payload. -/
def preRead (segSize : Nat) (st : SegReaderState) :
    Except IoKind (SegReaderState × List Nat) :=
  if st.input.length < segSize then .error .unexpectedEof
  else
    let seg := st.input.take segSize
    let crcStored := crcUnmask (fromLEBytes (seg.take 4))
    let flags := seg.getD 4 0
    let length := fromLEBytes ((seg.drop 6).take 2)
    if flags = 0 then .error .unexpectedEof
    else
      let crcCalc := crc32 (toLEBytes 4 0 ++ (seg.drop 4).take (length + 4))
      if crcStored ≠ crcCalc then .error .invalidData
      else if st.flags = 1 then .error .invalidData
      else if (st.flags = 2 ∨ st.flags = 3) ∧ ¬(flags = 4 ∨ flags = 3) then
        .error .invalidData
      else
        .ok ({ input := st.input.drop segSize
               done := flags = 4 ∨ flags = 1
               flags := flags },
             (seg.drop 8).take length)

/-- Reading one record to its end through SegmentReader::read: accumulate the
    segment payloads until the done flag is set.  Fuel bounds the loop; one
    unit per segment of the input plus one suffices whenever the segment size
    is positive. -/
def readAllAux (segSize : Nat) : Nat → SegReaderState → List Nat →
    Except IoKind (List Nat × List Nat)
  | 0, _, _ => .error .other
  | fuel + 1, st, acc =>
    if st.done then .ok (acc, st.input)
    else
      match preRead segSize st with
      | .error e => .error e
      | .ok (st2, payload) => readAllAux segSize fuel st2 (acc ++ payload)

/-- One LogReplayerIter::next at the framing level: a fresh SegmentReader over
    the remaining bytes, read to the end of the record chain. -/
def readRecordAll (segSize : Nat) (input : List Nat) :
    Except IoKind (List Nat × List Nat) :=
  readAllAux segSize (input.length + 1) { input := input, done := false, flags := 0 } []

/-- LogReplayer iteration: UnexpectedEof ends the iteration cleanly; any other
    io error is surfaced as StorageError::Io and ends it. -/
def replayAux (segSize : Nat) : Nat → List Nat → List (Except StorageError (List Nat))
  | 0, _ => []
  | fuel + 1, input =>
    match readRecordAll segSize input with
    | .ok (r, rest) => .ok r :: replayAux segSize fuel rest
    | .error e => if e = .unexpectedEof then [] else [.error (.io e)]

/-- Replay of a whole log file. -/
def replay (segSize : Nat) (input : List Nat) : List (Except StorageError (List Nat)) :=
  replayAux segSize (input.length + 1) input

/-! ## Merged scan iterator (src/storage/src/iterator.rs) -/

/-- An item flowing through MergedIter, as seen through KvIteratorItem. -/
structure MergedEnt where
  key : List Nat
  seq : Nat
  value : List Nat
deriving DecidableEq, Repr

/-- MergedItem::cmp, read as the pop order of the max-heap: a is popped before
    b when its user key is smaller, or the user keys are equal and its
    sequence is larger. -/
def mergedBefore (a b : MergedEnt) : Prop :=
  a.key < b.key ∨ (a.key = b.key ∧ b.seq < a.seq)

instance : DecidableRel mergedBefore := fun a b =>
  inferInstanceAs (Decidable (_ ∨ _))

/-- BinaryHeap::pop selects the maximum wrt MergedItem::cmp; on the list model
    this scans for the first element no other element strictly precedes. -/
def heapBestAux (best : MergedEnt × Nat) :
    List (MergedEnt × Nat) → MergedEnt × Nat
  | [] => best
  | x :: rest => heapBestAux (if mergedBefore x.1 best.1 then x else best) rest

def heapPop (l : List (MergedEnt × Nat)) :
    Option ((MergedEnt × Nat) × List (MergedEnt × Nat)) :=
  match l with
  | [] => none
  | x :: rest =>
    let b := heapBestAux x rest
    some (b, l.erase b)

/-- MergedIter state after initialisation: per-source remaining items, the
    heap entries (item, source index) and the dedup key. -/
structure MergedIterState where
  iters : List (List MergedEnt)
  heap : List (MergedEnt × Nat)
  lastKey : Option (List Nat)
deriving DecidableEq, Repr

/-- The init block of MergedIter::next: push the head of every source. -/
def mergedInit (iters : List (List MergedEnt)) : MergedIterState :=
  { iters := iters.map List.tail
    heap := iters.enum.filterMap (fun p => p.2.head?.map (fun e => (e, p.1)))
    lastKey := none }

/-- The pop loop of MergedIter::next, run to exhaustion: pop, refill from the
    popped source, skip the item when its user key equals last_key, otherwise
    emit it and remember its key.  Fuel bounds the loop; every iteration
    removes exactly one item, so the total item count plus one suffices. -/
def mergedRunAux : Nat → MergedIterState → List MergedEnt
  | 0, _ => []
  | fuel + 1, st =>
    match heapPop st.heap with
    | none => []
    | some ((e, idx), heap2) =>
      let nextIter := st.iters.getD idx []
      let heap3 := match nextIter.head? with
        | some v => (v, idx) :: heap2
        | none => heap2
      let st2 : MergedIterState :=
        { iters := st.iters.set idx nextIter.tail, heap := heap3, lastKey := st.lastKey }
      match st.lastKey with
      | some k =>
        if k = e.key then mergedRunAux fuel st2
        else e :: mergedRunAux fuel { st2 with lastKey := some e.key }
      | none => e :: mergedRunAux fuel { st2 with lastKey := some e.key }

def mergedTotal (st : MergedIterState) : Nat :=
  st.heap.length + (st.iters.map List.length).sum

/-- The full output of MergedIter over the given sources. -/
def mergedOutput (iters : List (List MergedEnt)) : List MergedEnt :=
  let st := mergedInit iters
  mergedRunAux (mergedTotal st + 1) st

/-- The per-source snapshot filter applied by the tier scans before merging
    (memtable.rs scan, raw_sst.rs scan): keep items whose sequence is at most
    the snapshot sequence. -/
def visibleUnder (snap : Nat) (l : List MergedEnt) : List MergedEnt :=
  l.filter (fun e => decide (e.seq ≤ snap))

/-- EqualFilter::next over a whole stream: skip an item whose user key equals
    the remembered one, otherwise emit it and remember its key. -/
def equalFilter : Option (List Nat) → List MergedEnt → List MergedEnt
  | _, [] => []
  | last, e :: rest =>
    if last = some e.key then equalFilter last rest
    else e :: equalFilter (some e.key) rest

/-- The reflexive closure of the pop order on a key tie: a is popped no later
    than b. -/
def mergedWeak (a b : MergedEnt) : Prop :=
  a.key < b.key ∨ (a.key = b.key ∧ b.seq ≤ a.seq)

/-- Two items do not collide on (user key, sequence). -/
def distKS (a b : MergedEnt) : Prop := ¬(a.key = b.key ∧ a.seq = b.seq)

instance : DecidableRel distKS := fun a b =>
  inferInstanceAs (Decidable (¬(a.key = b.key ∧ a.seq = b.seq)))

/-- All items still held by a MergedIter state: heap entries plus unread
    source items. -/
def stateEnts (st : MergedIterState) : List MergedEnt :=
  st.heap.map Prod.fst ++ st.iters.flatten

/-- A small concrete two-source scan input: two versions of key [1] split
    across sources plus one key [2]. -/
def c2Sources : List (List MergedEnt) :=
  [[{ key := [1], seq := 5, value := [10] }, { key := [2], seq := 3, value := [20] }],
   [{ key := [1], seq := 4, value := [11] }]]

/-- Invariant of the MergedIter loop: heap indices are in range and unique,
    each heap entry precedes everything left in its source, a source with no
    heap entry is exhausted, sources are sorted in pop order, and no two held
    items collide on (key, seq). -/
def MergedInv (st : MergedIterState) : Prop :=
  (∀ p ∈ st.heap, p.2 < st.iters.length)
  ∧ (∀ p ∈ st.heap, ∀ x ∈ st.iters.getD p.2 [], mergedBefore p.1 x)
  ∧ (st.heap.map Prod.snd).Nodup
  ∧ (∀ i, i < st.iters.length → (∀ p ∈ st.heap, p.2 ≠ i) → st.iters.getD i [] = [])
  ∧ (∀ l ∈ st.iters, l.Pairwise mergedBefore)
  ∧ (stateEnts st).Pairwise distKS

/-! ## Byte-codec lemmas -/

theorem toLEBytes_length (k n : Nat) : (toLEBytes k n).length = k := by
  induction k generalizing n with
  | zero => rfl
  | succ k ih => simp [toLEBytes, ih]

theorem toLEBytes_lt (k n : Nat) : ∀ b ∈ toLEBytes k n, b < 256 := by
  induction k generalizing n with
  | zero => intro b hb; simp [toLEBytes] at hb
  | succ k ih =>
    intro b hb
    simp only [toLEBytes, List.mem_cons] at hb
    rcases hb with h | h
    · omega
    · exact ih _ b h

theorem fromLEBytes_toLEBytes (k n : Nat) :
    fromLEBytes (toLEBytes k n) = n % 256 ^ k := by
  induction k generalizing n with
  | zero => simp [toLEBytes, fromLEBytes, Nat.mod_one]
  | succ k ih =>
    simp only [toLEBytes, fromLEBytes, ih]
    rw [Nat.pow_succ, Nat.mul_comm (256 ^ k) 256, Nat.mod_mul]

theorem fromLEBytes_lt (l : List Nat) (h : ∀ b ∈ l, b < 256) :
    fromLEBytes l < 256 ^ l.length := by
  induction l with
  | nil => simp [fromLEBytes]
  | cons b bs ih =>
    have hb : b < 256 := h b (List.mem_cons_self _ _)
    have hbs := ih (fun x hx => h x (List.mem_cons_of_mem _ hx))
    simp only [fromLEBytes, List.length_cons, Nat.pow_succ]
    calc b + 256 * fromLEBytes bs < 256 + 256 * fromLEBytes bs := by omega
    _ = 256 * (fromLEBytes bs + 1) := by ring
    _ ≤ 256 * 256 ^ bs.length := by
        exact Nat.mul_le_mul_left _ (by omega)
    _ = 256 ^ bs.length * 256 := by ring

theorem fromLEBytes_inj (l1 l2 : List Nat) (hlen : l1.length = l2.length)
    (h1 : ∀ b ∈ l1, b < 256) (h2 : ∀ b ∈ l2, b < 256)
    (heq : fromLEBytes l1 = fromLEBytes l2) : l1 = l2 := by
  induction l1 generalizing l2 with
  | nil => cases l2 with
    | nil => rfl
    | cons c cs => simp at hlen
  | cons b bs ih =>
    cases l2 with
    | nil => simp at hlen
    | cons c cs =>
      simp only [fromLEBytes] at heq
      have hb : b < 256 := h1 b (List.mem_cons_self _ _)
      have hc : c < 256 := h2 c (List.mem_cons_self _ _)
      have hbc : b = c ∧ fromLEBytes bs = fromLEBytes cs := by omega
      have := ih cs (by simpa using hlen)
        (fun x hx => h1 x (List.mem_cons_of_mem _ hx))
        (fun x hx => h2 x (List.mem_cons_of_mem _ hx)) hbc.2
      rw [hbc.1, this]

theorem shiftLeft_lor_eq (k hi lo : Nat) (h : lo < 2 ^ k) :
    hi <<< k ||| lo = hi * 2 ^ k + lo := by
  apply Nat.eq_of_testBit_eq
  intro i
  rw [Nat.testBit_lor, Nat.testBit_shiftLeft, Nat.mul_comm,
    Nat.testBit_mul_pow_two_add _ h]
  rcases lt_or_ge i k with hik | hik
  · simp [hik, Nat.not_le.mpr hik]
  · have hb : lo.testBit i = false :=
      Nat.testBit_lt_two_pow
        (lt_of_lt_of_le h (Nat.pow_le_pow_right (by norm_num) hik))
    simp [if_neg (Nat.not_lt.mpr hik), hik, hb]

theorem land_mask_eq_mod (n k : Nat) : n &&& (2 ^ k - 1) = n % 2 ^ k :=
  Nat.and_pow_two_sub_one_eq_mod n k

/-! ## Key-codec lemmas -/

theorem packedTail_eq (seq : Nat) (ty : KeyType) :
    (ty.toU8 <<< 56) ||| (seq &&& 0xFFFFFFFFFFFF) = ty.toU8 * 2 ^ 56 + seq % 2 ^ 48 := by
  have h1 : seq &&& 0xFFFFFFFFFFFF = seq % 2 ^ 48 := by
    have : (0xFFFFFFFFFFFF : Nat) = 2 ^ 48 - 1 := by norm_num
    rw [this, land_mask_eq_mod]
  rw [h1, shiftLeft_lor_eq]
  calc seq % 2 ^ 48 < 2 ^ 48 := Nat.mod_lt _ (by norm_num)
  _ ≤ 2 ^ 56 := by norm_num

theorem internalKeyNew_length (u : List Nat) (s : Nat) (ty : KeyType) :
    (internalKeyNew u s ty).length = u.length + 8 := by
  simp [internalKeyNew, toLEBytes_length]

theorem ikUserKey_new (u : List Nat) (s : Nat) (ty : KeyType) :
    ikUserKey (internalKeyNew u s ty) = u := by
  unfold ikUserKey
  rw [internalKeyNew_length]
  simp only [internalKeyNew, Nat.add_sub_cancel]
  rw [← toLEBytes_length 8 ((ty.toU8 <<< 56) ||| (s &&& 0xFFFFFFFFFFFF))] at *
  exact List.take_left u _

theorem ikTail_new (u : List Nat) (s : Nat) (ty : KeyType) :
    ikTail (internalKeyNew u s ty) = ty.toU8 * 2 ^ 56 + s % 2 ^ 48 := by
  unfold ikTail
  rw [internalKeyNew_length]
  simp only [internalKeyNew, Nat.add_sub_cancel]
  have hd : (u ++ toLEBytes 8 ((ty.toU8 <<< 56) ||| (s &&& 0xFFFFFFFFFFFF))).drop u.length
      = toLEBytes 8 ((ty.toU8 <<< 56) ||| (s &&& 0xFFFFFFFFFFFF)) :=
    List.drop_left u _
  rw [hd, fromLEBytes_toLEBytes, packedTail_eq]
  have hty : ty.toU8 ≤ 1 := by cases ty <;> simp [KeyType.toU8]
  have : ty.toU8 * 2 ^ 56 + s % 2 ^ 48 < 256 ^ 8 := by
    have := Nat.mod_lt s (y := 2 ^ 48) (by norm_num)
    have h256 : (256 : Nat) ^ 8 = 2 ^ 64 := by norm_num
    omega
  exact Nat.mod_eq_of_lt this

theorem ikSeq_new (u : List Nat) (s : Nat) (ty : KeyType) :
    ikSeq (internalKeyNew u s ty) = s % 2 ^ 48 := by
  unfold ikSeq
  rw [ikTail_new]
  have : (0xFFFFFFFFFFFF : Nat) = 2 ^ 48 - 1 := by norm_num
  rw [this, land_mask_eq_mod]
  have h56 : (2 : Nat) ^ 56 = 72057594037927936 := by norm_num
  have h48 : (2 : Nat) ^ 48 = 281474976710656 := by norm_num
  rw [h56, h48]
  omega

theorem ikKeyType_new (u : List Nat) (s : Nat) (ty : KeyType) :
    ikKeyType (internalKeyNew u s ty) = ty.toU8 := by
  unfold ikKeyType
  rw [ikTail_new, Nat.shiftRight_eq_div_pow]
  have h56 : (2 : Nat) ^ 56 = 72057594037927936 := by norm_num
  have h48 : (2 : Nat) ^ 48 = 281474976710656 := by norm_num
  have hty : ty.toU8 ≤ 1 := by cases ty <;> simp [KeyType.toU8]
  rw [h56, h48]
  omega

/-! ## Claim C8: value size limit in the write-batch builder -/

/-- C8: WriteBatchBuilder::add_internal (and hence set) returns ValueTooLarge
    exactly when the value is strictly larger than 10 MiB (a 10 MiB value is
    accepted), and on that error the builder is handed back untouched. -/
theorem claim_C8_valueTooLarge (b : WriteBatchBuilder) (key value : List Nat) :
    ((b.addInternal key value).2 = some .valueTooLarge ↔ 1024 * 1024 * 10 < value.length) ∧
    ((b.set key value).2 = some .valueTooLarge ↔ 1024 * 1024 * 10 < value.length) ∧
    (1024 * 1024 * 10 < value.length → b.addInternal key value = (b, some .valueTooLarge)) := by
  unfold WriteBatchBuilder.set WriteBatchBuilder.addInternal
  by_cases h : 1024 * 1024 * 10 < value.length <;> simp [h]

/-! ## Claim C9: memtable full() thresholds -/

theorem applySets_stats (m : Memtable) (ops : List (List Nat × List Nat)) :
    (m.applySets ops).list.length = m.list.length + ops.length ∧
    (m.applySets ops).totalBytes = m.totalBytes + (ops.map (fun p => p.2.length)).sum := by
  induction ops generalizing m with
  | nil => simp [Memtable.applySets]
  | cons p rest ih =>
    have hstep : m.applySets (p :: rest) = (m.set p.1 p.2).applySets rest := rfl
    rw [hstep]
    have h := ih (m.set p.1 p.2)
    have hlen : (m.set p.1 p.2).list.length = m.list.length + 1 := by
      simp [Memtable.set, List.orderedInsert_length]
    have hbytes : (m.set p.1 p.2).totalBytes = m.totalBytes + p.2.length := by
      simp [Memtable.set]
    refine ⟨?_, ?_⟩
    · rw [h.1, hlen]; simp; omega
    · rw [h.2, hbytes]; simp [List.map_cons, List.sum_cons]; omega

/-- C9 (amended): Memtable::full is true exactly when the entry count is at
    least 16 Ki or the accumulated bytes are strictly greater than 10 MiB
    (a memtable holding exactly 10 MiB is not full), and the accumulated
    bytes count only the value bytes of the inserted entries, not the keys. -/
theorem claim_C9_full (n : Nat) (ops : List (List Nat × List Nat)) :
    ((Memtable.new n).applySets ops).full =
      (decide (1024 * 16 ≤ ops.length) ||
       decide (1024 * 1024 * 10 < (ops.map (fun p => p.2.length)).sum)) := by
  have h := applySets_stats (Memtable.new n) ops
  unfold Memtable.full
  rw [h.1, h.2]
  simp [Memtable.new]

theorem memtable_set_full (m : Memtable) (k v : List Nat) :
    (m.set k v).full =
      (decide (1024 * 16 ≤ m.list.length + 1) ||
       decide (1024 * 1024 * 10 < m.totalBytes + v.length)) := by
  unfold Memtable.full Memtable.set
  simp [List.orderedInsert_length]

/-- C9 counterexample: after a single insert whose value is exactly 10 MiB
    (so the entry bytes are at least 10 MiB however they are counted, and the
    claim as stated demands full() = true), full() is false. -/
theorem claim_C9_counterexample :
    ((Memtable.new 0).set (internalKeyNew [97] 1 .set)
        (List.replicate (1024 * 1024 * 10) 0)).full = false ∧
    (List.replicate (1024 * 1024 * 10) (0 : Nat)).length = 1024 * 1024 * 10 := by
  have hlen : (List.replicate (1024 * 1024 * 10) (0 : Nat)).length = 1024 * 1024 * 10 :=
    List.length_replicate _ _
  refine ⟨?_, hlen⟩
  rw [memtable_set_full, hlen]
  simp only [Memtable.new, List.length_nil]
  decide

/-! ## Claim C1: Memtable::set_batch -/

/-- C1: Memtable::set_batch as written is a no-op stub: it returns Ok(())
    for every batch without inserting anything, so after set_batch no item
    of the batch is retrievable; evaluated on the one-item batch
    set(a, 1) over an empty memtable, the memtable is unchanged and the get
    fails with KeyNotExist. -/
theorem claim_C1_setBatch_noop :
    (∀ (m : Memtable) (b : WriteBatch), m.setBatch b = (m, none)) ∧
    ((Memtable.new 0).setBatch ((WriteBatchBuilder.set .new [97] [49]).1.build)).1
      = Memtable.new 0 ∧
    (((Memtable.new 0).setBatch ((WriteBatchBuilder.set .new [97] [49]).1.build)).1.get
        none [97] = .error .keyNotExist) := by
  exact ⟨fun m b => rfl, rfl, rfl⟩

/-! ## Claim C5: the seq field handed to the WAL -/

/-- C5 (amended): Storage::set_batch hands the batch bytes to the WAL append
    unchanged, so the WAL record carries the seq recorded at build time
    (0 unless set_seq was called) rather than the freshly allocated sequence;
    the allocated sequence is only returned (and passed to the memtable
    insert). -/
theorem claim_C5_walRecordSeq (st : StorageState) (b : WriteBatchBuilder) :
    (Storage.setBatch st b.build).1.wal = st.wal ++ [b.build.bytes] ∧
    (Storage.setBatch st b.build).2 = st.lastSeq ∧
    seqField b.build.bytes = b.seq % 2 ^ 64 ∧
    countField b.build.bytes = b.total % 2 ^ 64 := by
  refine ⟨rfl, rfl, ?_, ?_⟩
  · unfold seqField WriteBatchBuilder.build
    simp only
    rw [List.append_assoc]
    have h1 : (toLEBytes 8 b.total ++ (toLEBytes 8 b.seq ++ b.bytes.drop 16)).drop 8
        = toLEBytes 8 b.seq ++ b.bytes.drop 16 := by
      have := List.drop_left (toLEBytes 8 b.total) (toLEBytes 8 b.seq ++ b.bytes.drop 16)
      rwa [toLEBytes_length] at this
    rw [h1]
    have h2 : (toLEBytes 8 b.seq ++ b.bytes.drop 16).take 8 = toLEBytes 8 b.seq := by
      have := List.take_left (toLEBytes 8 b.seq) (b.bytes.drop 16)
      rwa [toLEBytes_length] at this
    rw [h2, fromLEBytes_toLEBytes]
    norm_num
  · unfold countField WriteBatchBuilder.build
    simp only
    rw [List.append_assoc]
    have h2 : (toLEBytes 8 b.total ++ (toLEBytes 8 b.seq ++ b.bytes.drop 16)).take 8
        = toLEBytes 8 b.total := by
      have := List.take_left (toLEBytes 8 b.total) (toLEBytes 8 b.seq ++ b.bytes.drop 16)
      rwa [toLEBytes_length] at this
    rw [h2, fromLEBytes_toLEBytes]
    norm_num

/-- C5 counterexample: committing the batch set(a, 1) when the allocator
    stands at 5 returns sequence 5, but the record appended to the WAL still
    carries seq = 0 in its header. -/
theorem claim_C5_counterexample :
    (Storage.setBatch ⟨5, [], Memtable.new 0⟩
        ((WriteBatchBuilder.set .new [97] [49]).1.build)).2 = 5 ∧
    (Storage.setBatch ⟨5, [], Memtable.new 0⟩
        ((WriteBatchBuilder.set .new [97] [49]).1.build)).1.wal =
      [((WriteBatchBuilder.set .new [97] [49]).1.build).bytes] ∧
    seqField ((WriteBatchBuilder.set .new [97] [49]).1.build).bytes = 0 ∧
    (0 : Nat) ≠ 5 := by
  refine ⟨rfl, rfl, by decide, by decide⟩

/-! ## Claim C6: SST binary search -/

theorem sorted_getD_mono {α : Type} [LinearOrder α] [Inhabited α] {keys : List α}
    (hs : List.Sorted (· ≤ ·) keys) {i j : Nat} (hij : i ≤ j) (hj : j < keys.length) :
    keys.getD i default ≤ keys.getD j default := by
  have hi : i < keys.length := lt_of_le_of_lt hij hj
  have h := hs.rel_get_of_le (a := ⟨i, hi⟩) (b := ⟨j, hj⟩) hij
  rw [List.getD_eq_getElem _ _ hi, List.getD_eq_getElem _ _ hj]
  simpa using h

theorem lbLoop_spec {α : Type} [LinearOrder α] [Inhabited α] (keys : List α) (q : α)
    (hs : List.Sorted (· ≤ ·) keys) :
    ∀ (size base : Nat), 1 ≤ size → base + size ≤ keys.length →
      (base = 0 ∨ keys.getD base default < q) →
      (∀ j, base + size ≤ j → j < keys.length → q ≤ keys.getD j default) →
      ((lbLoop keys q base size = 0 ∨ keys.getD (lbLoop keys q base size) default < q) ∧
       (∀ j, lbLoop keys q base size + 1 ≤ j → j < keys.length → q ≤ keys.getD j default) ∧
       lbLoop keys q base size + 1 ≤ base + size ∧ base ≤ lbLoop keys q base size) := by
  intro size
  induction size using Nat.strong_induction_on with
  | _ size ih =>
    intro base h1 h2 hP1 hP2
    by_cases hsz : size ≤ 1
    · rw [lbLoop, if_pos hsz]
      refine ⟨hP1, ?_, by omega, Nat.le_refl _⟩
      intro j hj hjl
      exact hP2 j (by omega) hjl
    · rw [lbLoop, if_neg hsz]
      by_cases hc : keys.getD (base + size / 2) default < q
      · rw [if_pos hc]
        have hrec := ih (size - size / 2) (by omega) (base + size / 2) (by omega)
          (by omega) (Or.inr hc) (fun j hj hjl => hP2 j (by omega) hjl)
        exact ⟨hrec.1, hrec.2.1, by omega, by omega⟩
      · rw [if_neg hc]
        have hq : q ≤ keys.getD (base + size / 2) default := le_of_not_lt hc
        have hrec := ih (size - size / 2) (by omega) base (by omega)
          (by omega) hP1 ?_
        · exact ⟨hrec.1, hrec.2.1, by omega, hrec.2.2.2⟩
        · intro j hj hjl
          have hmidj : base + size / 2 ≤ j := by omega
          exact le_trans hq (sorted_getD_mono hs hmidj hjl)

theorem ubLoop_spec {α : Type} [LinearOrder α] [Inhabited α] (keys : List α) (q : α)
    (hs : List.Sorted (· ≤ ·) keys) :
    ∀ (size base : Nat), 1 ≤ size → base + size ≤ keys.length →
      (base = 0 ∨ keys.getD base default ≤ q) →
      (∀ j, base + size ≤ j → j < keys.length → q < keys.getD j default) →
      ((ubLoop keys q base size = 0 ∨ keys.getD (ubLoop keys q base size) default ≤ q) ∧
       (∀ j, ubLoop keys q base size + 1 ≤ j → j < keys.length → q < keys.getD j default) ∧
       ubLoop keys q base size + 1 ≤ base + size ∧ base ≤ ubLoop keys q base size) := by
  intro size
  induction size using Nat.strong_induction_on with
  | _ size ih =>
    intro base h1 h2 hP1 hP2
    by_cases hsz : size ≤ 1
    · rw [ubLoop, if_pos hsz]
      refine ⟨hP1, ?_, by omega, Nat.le_refl _⟩
      intro j hj hjl
      exact hP2 j (by omega) hjl
    · rw [ubLoop, if_neg hsz]
      by_cases hc : q < keys.getD (base + size / 2) default
      · rw [if_pos hc]
        have hrec := ih (size - size / 2) (by omega) base (by omega)
          (by omega) hP1 ?_
        · exact ⟨hrec.1, hrec.2.1, by omega, hrec.2.2.2⟩
        · intro j hj hjl
          have hmidj : base + size / 2 ≤ j := by omega
          exact lt_of_lt_of_le hc (sorted_getD_mono hs hmidj hjl)
      · rw [if_neg hc]
        have hq : keys.getD (base + size / 2) default ≤ q := le_of_not_lt hc
        have hrec := ih (size - size / 2) (by omega) (base + size / 2) (by omega)
          (by omega) (Or.inr hq) (fun j hj hjl => hP2 j (by omega) hjl)
        exact ⟨hrec.1, hrec.2.1, by omega, by omega⟩

/-- C6: on a user-key-sorted SST, lower_bound(q) is the smallest index whose
    key is at least q (total_keys when there is none), upper_bound(q) is the
    smallest index whose key is strictly greater than q, and on an empty SST
    both return 0. -/
theorem claim_C6_bounds (keys : List (List Nat)) (q : List Nat)
    (hs : List.Sorted (· ≤ ·) keys) :
    (sstLowerBound keys q ≤ keys.length ∧
     (∀ j, j < sstLowerBound keys q → keys.getD j default < q) ∧
     (∀ j, sstLowerBound keys q ≤ j → j < keys.length → q ≤ keys.getD j default)) ∧
    (sstUpperBound keys q ≤ keys.length ∧
     (∀ j, j < sstUpperBound keys q → keys.getD j default ≤ q) ∧
     (∀ j, sstUpperBound keys q ≤ j → j < keys.length → q < keys.getD j default)) ∧
    (keys = [] → sstLowerBound keys q = 0 ∧ sstUpperBound keys q = 0) := by
  by_cases hemp : keys.length = 0
  · have : keys = [] := List.length_eq_zero.mp hemp
    subst this
    refine ⟨⟨by simp [sstLowerBound], ?_, ?_⟩, ⟨by simp [sstUpperBound], ?_, ?_⟩, ?_⟩
    · intro j hj; simp [sstLowerBound] at hj
    · intro j hj hjl; simp at hjl
    · intro j hj; simp [sstUpperBound] at hj
    · intro j hj hjl; simp at hjl
    · intro _; exact ⟨rfl, rfl⟩
  · have hlb := lbLoop_spec keys q hs keys.length 0 (by omega) (by omega)
      (Or.inl rfl) (fun j hj hjl => by omega)
    have hub := ubLoop_spec keys q hs keys.length 0 (by omega) (by omega)
      (Or.inl rfl) (fun j hj hjl => by omega)
    refine ⟨?_, ?_, fun habs => absurd (congrArg List.length habs) (by simpa using hemp)⟩
    · unfold sstLowerBound
      rw [if_neg hemp]
      simp only
      by_cases hc : keys.getD (lbLoop keys q 0 keys.length) default < q
      · rw [if_pos hc]
        refine ⟨by omega, ?_, ?_⟩
        · intro j hj
          exact lt_of_le_of_lt
            (sorted_getD_mono hs (by omega) (by omega)) hc
        · intro j hj hjl
          exact hlb.2.1 j (by omega) hjl
      · rw [if_neg hc]
        have hz : lbLoop keys q 0 keys.length = 0 := by
          rcases hlb.1 with h | h
          · exact h
          · exact absurd h hc
        refine ⟨by omega, ?_, ?_⟩
        · intro j hj; omega
        · intro j hj hjl
          rcases Nat.eq_or_lt_of_le hj with rfl | hlt
          · exact le_of_not_lt hc
          · exact hlb.2.1 j (by omega) hjl
    · unfold sstUpperBound
      rw [if_neg hemp]
      simp only
      by_cases hc : q < keys.getD (ubLoop keys q 0 keys.length) default
      · rw [if_pos hc]
        have hz : ubLoop keys q 0 keys.length = 0 := by
          rcases hub.1 with h | h
          · exact h
          · exact absurd hc (not_lt_of_le h)
        refine ⟨by omega, ?_, ?_⟩
        · intro j hj; simp at hj; omega
        · intro j hj hjl
          rcases Nat.eq_or_lt_of_le hj with hje | hlt
          · have hjr : j = ubLoop keys q 0 keys.length := by omega
            rw [hjr]
            exact hc
          · exact hub.2.1 j (by omega) hjl
      · rw [if_neg hc]
        have hq : keys.getD (ubLoop keys q 0 keys.length) default ≤ q := le_of_not_lt hc
        refine ⟨by omega, ?_, ?_⟩
        · intro j hj
          exact le_trans (sorted_getD_mono hs (by omega) (by omega)) hq
        · intro j hj hjl
          exact hub.2.1 j (by omega) hjl

/-- Witness for C6 on the concrete sorted SST [1], [3], [3], [5] with
    query [3]: the smallest-index characterisation pins lower_bound to 1 and
    upper_bound to 3. -/
theorem claim_C6_bounds_witness :
    List.Sorted (· ≤ ·) [[1], [3], [3], [5]] ∧
    sstLowerBound [[1], [3], [3], [5]] [3] = 1 ∧
    sstUpperBound [[1], [3], [3], [5]] [3] = 3 := by
  have hs : List.Sorted (· ≤ ·) [[1], [3], [3], [5]] := by decide
  have h := claim_C6_bounds [[1], [3], [3], [5]] [3] hs
  refine ⟨hs, ?_, ?_⟩
  · by_contra hne
    have hr4 : sstLowerBound [[1], [3], [3], [5]] ([3] : List Nat) ≤ 4 := by
      simpa using h.1.1
    have hcase : sstLowerBound [[1], [3], [3], [5]] ([3] : List Nat) = 0 ∨
        2 ≤ sstLowerBound [[1], [3], [3], [5]] ([3] : List Nat) := by omega
    rcases hcase with h0 | h2
    · have hmem := h.1.2.2 0 (by omega) (by norm_num)
      revert hmem
      decide
    · have hmem := h.1.2.1 1 (by omega)
      revert hmem
      decide
  · by_contra hne
    have hr4 : sstUpperBound [[1], [3], [3], [5]] ([3] : List Nat) ≤ 4 := by
      simpa using h.2.1.1
    have hcase : sstUpperBound [[1], [3], [3], [5]] ([3] : List Nat) ≤ 2 ∨
        sstUpperBound [[1], [3], [3], [5]] ([3] : List Nat) = 4 := by omega
    rcases hcase with hle | h4
    · have hmem := h.2.1.2.2 2 (by omega) (by norm_num)
      revert hmem
      decide
    · have hmem := h.2.1.2.1 3 (by omega)
      revert hmem
      decide

/-! ## Claim C10: Imemtable::new retain filter -/

theorem imemtableRetain_spec (r : Nat) :
    ∀ (keys : List KvEntry) (seen : List (List Nat)),
      List.Pairwise kvEntryBefore keys →
      ((imemtableRetain r keys seen).Sublist keys ∧
       ∀ e, e ∈ imemtableRetain r keys seen ↔ e ∈ keys ∧
         (r ≤ e.version ∨
          (e.version < r ∧ e.key ∉ seen ∧
           ∀ e2 ∈ keys, e2.key = e.key → e2.version < r → e2.version ≤ e.version))) := by
  intro keys
  induction keys with
  | nil =>
    intro seen _
    constructor
    · simp [imemtableRetain]
    · intro e
      simp [imemtableRetain]
  | cons e rest ih =>
    intro seen hp
    have hhead : ∀ x ∈ rest, kvEntryBefore e x := (List.pairwise_cons.mp hp).1
    have hrest : List.Pairwise kvEntryBefore rest := (List.pairwise_cons.mp hp).2
    by_cases hv : e.version < r
    · by_cases hseen : e.key ∈ seen
      · have hred : imemtableRetain r (e :: rest) seen = imemtableRetain r rest seen := by
          simp [imemtableRetain, hv, hseen]
        rw [hred]
        obtain ⟨hsub, hmem⟩ := ih seen hrest
        constructor
        · exact hsub.cons e
        · intro x
          rw [hmem x]
          constructor
          · rintro ⟨hxrest, hcond⟩
            refine ⟨List.mem_cons_of_mem _ hxrest, ?_⟩
            rcases hcond with h | ⟨h1, h2, h3⟩
            · exact Or.inl h
            · refine Or.inr ⟨h1, h2, ?_⟩
              intro e2 he2 hk hvr
              rcases List.mem_cons.mp he2 with rfl | he2r
              · exfalso
                exact h2 (hk ▸ hseen)
              · exact h3 e2 he2r hk hvr
          · rintro ⟨hxin, hcond⟩
            rcases List.mem_cons.mp hxin with rfl | hxr
            · rcases hcond with h | ⟨h1, h2, _⟩
              · omega
              · exact absurd hseen h2
            · refine ⟨hxr, ?_⟩
              rcases hcond with h | ⟨h1, h2, h3⟩
              · exact Or.inl h
              · exact Or.inr ⟨h1, h2, fun e2 he2 hk hvr =>
                  h3 e2 (List.mem_cons_of_mem _ he2) hk hvr⟩
      · have hred : imemtableRetain r (e :: rest) seen
            = e :: imemtableRetain r rest (e.key :: seen) := by
          simp [imemtableRetain, hv, hseen]
        rw [hred]
        obtain ⟨hsub, hmem⟩ := ih (e.key :: seen) hrest
        constructor
        · exact hsub.cons₂ e
        · intro x
          rw [List.mem_cons, hmem x]
          constructor
          · rintro (rfl | ⟨hxrest, hcond⟩)
            · refine ⟨List.mem_cons_self _ _, Or.inr ⟨hv, hseen, ?_⟩⟩
              intro e2 he2 hk hvr
              rcases List.mem_cons.mp he2 with rfl | he2r
              · exact le_refl _
              · have := hhead e2 he2r
                rcases this with h | ⟨_, h⟩
                · exact absurd (hk ▸ h) (lt_irrefl _)
                · omega
            · refine ⟨List.mem_cons_of_mem _ hxrest, ?_⟩
              rcases hcond with h | ⟨h1, h2, h3⟩
              · exact Or.inl h
              · have hkne : x.key ≠ e.key := fun hc => h2 (hc ▸ List.mem_cons_self _ _)
                refine Or.inr ⟨h1, fun hc => h2 (List.mem_cons_of_mem _ hc), ?_⟩
                intro e2 he2 hk hvr
                rcases List.mem_cons.mp he2 with rfl | he2r
                · exact absurd hk.symm hkne
                · exact h3 e2 he2r hk hvr
          · rintro ⟨hxin, hcond⟩
            rcases List.mem_cons.mp hxin with rfl | hxr
            · exact Or.inl rfl
            · rcases hcond with h | ⟨h1, h2, h3⟩
              · exact Or.inr ⟨hxr, Or.inl h⟩
              · have hkne : x.key ≠ e.key := by
                  intro hc
                  have hbef := hhead x hxr
                  rcases hbef with h4 | ⟨_, h4⟩
                  · exact absurd (hc ▸ le_refl x.key) (not_le_of_lt h4)
                  · have := h3 e (List.mem_cons_self _ _) hc.symm hv
                    omega
                refine Or.inr ⟨hxr, Or.inr ⟨h1, ?_, ?_⟩⟩
                · intro hc
                  rcases List.mem_cons.mp hc with hc2 | hc2
                  · exact hkne hc2
                  · exact h2 hc2
                · intro e2 he2 hk hvr
                  exact h3 e2 (List.mem_cons_of_mem _ he2) hk hvr
    · have hred : imemtableRetain r (e :: rest) seen
          = e :: imemtableRetain r rest seen := by
        simp [imemtableRetain, hv]
      rw [hred]
      obtain ⟨hsub, hmem⟩ := ih seen hrest
      constructor
      · exact hsub.cons₂ e
      · intro x
        rw [List.mem_cons, hmem x]
        constructor
        · rintro (rfl | ⟨hxrest, hcond⟩)
          · exact ⟨List.mem_cons_self _ _, Or.inl (by omega)⟩
          · refine ⟨List.mem_cons_of_mem _ hxrest, ?_⟩
            rcases hcond with h | ⟨h1, h2, h3⟩
            · exact Or.inl h
            · refine Or.inr ⟨h1, h2, ?_⟩
              intro e2 he2 hk hvr
              rcases List.mem_cons.mp he2 with rfl | he2r
              · omega
              · exact h3 e2 he2r hk hvr
        · rintro ⟨hxin, hcond⟩
          rcases List.mem_cons.mp hxin with rfl | hxr
          · exact Or.inl rfl
          · refine Or.inr ⟨hxr, ?_⟩
            rcases hcond with h | ⟨h1, h2, h3⟩
            · exact Or.inl h
            · exact Or.inr ⟨h1, h2, fun e2 he2 hk hvr =>
                h3 e2 (List.mem_cons_of_mem _ he2) hk hvr⟩

/-- C10: freezing a memtable sorted ascending by key and descending by
    version with reserved version r retains exactly the entries with
    version at least r plus, per user key, the single newest entry below r;
    the retained entries are a sublist (so they keep their order and remain
    sorted). -/
theorem claim_C10_imemtableNew (keys : List KvEntry) (r : Nat)
    (hsort : List.Pairwise kvEntryBefore keys) :
    (imemtableNew keys r).Sublist keys ∧
    List.Pairwise kvEntryBefore (imemtableNew keys r) ∧
    (∀ e, e ∈ imemtableNew keys r ↔ e ∈ keys ∧
      (r ≤ e.version ∨
       (e.version < r ∧
        ∀ e2 ∈ keys, e2.key = e.key → e2.version < r → e2.version ≤ e.version))) := by
  obtain ⟨hsub, hmem⟩ := imemtableRetain_spec r keys [] hsort
  refine ⟨hsub, hsort.sublist hsub, ?_⟩
  intro e
  rw [show imemtableNew keys r = imemtableRetain r keys [] from rfl, hmem e]
  simp

/-- Witness for C10: the concrete frozen memtable with three versions of key
    [1] and two of key [2], reserved version 5. -/
theorem claim_C10_imemtableNew_witness :
    List.Pairwise kvEntryBefore
      [⟨[1], 9, []⟩, ⟨[1], 4, []⟩, ⟨[1], 3, []⟩, ⟨[2], 2, []⟩, ⟨[2], 1, []⟩] ∧
    imemtableNew
      [⟨[1], 9, []⟩, ⟨[1], 4, []⟩, ⟨[1], 3, []⟩, ⟨[2], 2, []⟩, ⟨[2], 1, []⟩] 5
      = [⟨[1], 9, []⟩, ⟨[1], 4, []⟩, ⟨[2], 2, []⟩] ∧
    (imemtableNew
      [⟨[1], 9, []⟩, ⟨[1], 4, []⟩, ⟨[1], 3, []⟩, ⟨[2], 2, []⟩, ⟨[2], 1, []⟩] 5).Sublist
      [⟨[1], 9, []⟩, ⟨[1], 4, []⟩, ⟨[1], 3, []⟩, ⟨[2], 2, []⟩, ⟨[2], 1, []⟩] := by
  have hp : List.Pairwise kvEntryBefore
      [⟨[1], 9, []⟩, ⟨[1], 4, []⟩, ⟨[1], 3, []⟩, ⟨[2], 2, []⟩, ⟨[2], 1, []⟩] := by
    decide
  exact ⟨hp, by decide, (claim_C10_imemtableNew _ 5 hp).1⟩

/-! ## Claim C7: snapshot refcounts -/

theorem snapCount_eq_zero_of_ne (l : List (Nat × Nat)) (v : Nat)
    (h : ∀ p ∈ l, p.1 ≠ v) : snapCount l v = 0 := by
  unfold snapCount
  have : l.find? (fun p => decide (p.1 = v)) = none := by
    rw [List.find?_eq_none]
    intro p hp
    simpa using h p hp
  rw [this]

theorem snapCount_cons (k c : Nat) (rest : List (Nat × Nat)) (s : Nat) :
    snapCount ((k, c) :: rest) s = if k = s then c else snapCount rest s := by
  unfold snapCount
  by_cases h : k = s
  · simp [List.find?_cons, h]
  · simp [List.find?_cons, h]

theorem snapInsert_mem (v : Nat) (l : List (Nat × Nat)) (p : Nat × Nat)
    (hp : p ∈ snapInsert v l) : p.1 = v ∨ p ∈ l := by
  induction l with
  | nil =>
    simp [snapInsert] at hp
    exact Or.inl (by rw [hp])
  | cons q rest ih =>
    obtain ⟨k, c⟩ := q
    by_cases h1 : v < k
    · rw [show snapInsert v ((k, c) :: rest) = (v, 1) :: (k, c) :: rest by
        simp [snapInsert, h1]] at hp
      rcases List.mem_cons.mp hp with rfl | hp2
      · exact Or.inl rfl
      · exact Or.inr hp2
    · by_cases h2 : v = k
      · rw [show snapInsert v ((k, c) :: rest) = (k, c + 1) :: rest by
          simp [snapInsert, h1, h2]] at hp
        rcases List.mem_cons.mp hp with rfl | hp2
        · exact Or.inl h2.symm
        · exact Or.inr (List.mem_cons_of_mem _ hp2)
      · rw [show snapInsert v ((k, c) :: rest) = (k, c) :: snapInsert v rest by
          simp [snapInsert, h1, h2]] at hp
        rcases List.mem_cons.mp hp with rfl | hp2
        · exact Or.inr (List.mem_cons_self _ _)
        · rcases ih hp2 with h | h
          · exact Or.inl h
          · exact Or.inr (List.mem_cons_of_mem _ h)

theorem snapInsert_sorted (v : Nat) (l : List (Nat × Nat))
    (hs : List.Pairwise (fun a b => a.1 < b.1) l) :
    List.Pairwise (fun a b => a.1 < b.1) (snapInsert v l) := by
  induction l with
  | nil => simp [snapInsert]
  | cons p rest ih =>
    obtain ⟨k, c⟩ := p
    obtain ⟨hk, hrest⟩ := List.pairwise_cons.mp hs
    by_cases h1 : v < k
    · rw [show snapInsert v ((k, c) :: rest) = (v, 1) :: (k, c) :: rest by
        simp [snapInsert, h1]]
      refine List.pairwise_cons.mpr ⟨?_, hs⟩
      intro p hp
      rcases List.mem_cons.mp hp with rfl | hp2
      · exact h1
      · exact lt_trans h1 (hk p hp2)
    · by_cases h2 : v = k
      · rw [show snapInsert v ((k, c) :: rest) = (k, c + 1) :: rest by
          simp [snapInsert, h1, h2]]
        exact List.pairwise_cons.mpr ⟨hk, hrest⟩
      · rw [show snapInsert v ((k, c) :: rest) = (k, c) :: snapInsert v rest by
          simp [snapInsert, h1, h2]]
        refine List.pairwise_cons.mpr ⟨?_, ih hrest⟩
        intro p hp
        rcases snapInsert_mem v rest p hp with h | h
        · rw [h]; omega
        · exact hk p h

theorem snapRelease_mem (v : Nat) (l : List (Nat × Nat)) (p : Nat × Nat)
    (hp : p ∈ snapRelease v l) : p = (v, 0) ∨ p = (v, snapCount l v - 1) ∨ p ∈ l := by
  induction l with
  | nil =>
    simp [snapRelease] at hp
    exact Or.inl (by rw [hp])
  | cons q rest ih =>
    obtain ⟨k, c⟩ := q
    by_cases h1 : v < k
    · rw [show snapRelease v ((k, c) :: rest) = (v, 0) :: (k, c) :: rest by
        simp [snapRelease, h1]] at hp
      rcases List.mem_cons.mp hp with rfl | hp2
      · exact Or.inl rfl
      · exact Or.inr (Or.inr hp2)
    · by_cases h2 : v = k
      · subst h2
        by_cases h3 : c - 1 = 0
        · rw [show snapRelease v ((v, c) :: rest) = rest by
            simp [snapRelease, h1, h3]] at hp
          exact Or.inr (Or.inr (List.mem_cons_of_mem _ hp))
        · rw [show snapRelease v ((v, c) :: rest) = (v, c - 1) :: rest by
            simp [snapRelease, h1, h3]] at hp
          rcases List.mem_cons.mp hp with rfl | hp2
          · refine Or.inr (Or.inl ?_)
            rw [snapCount_cons]
            simp
          · exact Or.inr (Or.inr (List.mem_cons_of_mem _ hp2))
      · rw [show snapRelease v ((k, c) :: rest) = (k, c) :: snapRelease v rest by
          simp [snapRelease, h1, h2]] at hp
        rcases List.mem_cons.mp hp with rfl | hp2
        · exact Or.inr (Or.inr (List.mem_cons_self _ _))
        · rcases ih hp2 with h | h | h
          · exact Or.inl h
          · rw [snapCount_cons, if_neg (fun hc => h2 hc.symm)]
            exact Or.inr (Or.inl h)
          · exact Or.inr (Or.inr (List.mem_cons_of_mem _ h))

theorem snapRelease_sorted (v : Nat) (l : List (Nat × Nat))
    (hs : List.Pairwise (fun a b => a.1 < b.1) l) :
    List.Pairwise (fun a b => a.1 < b.1) (snapRelease v l) := by
  induction l with
  | nil => simp [snapRelease]
  | cons p rest ih =>
    obtain ⟨k, c⟩ := p
    obtain ⟨hk, hrest⟩ := List.pairwise_cons.mp hs
    by_cases h1 : v < k
    · rw [show snapRelease v ((k, c) :: rest) = (v, 0) :: (k, c) :: rest by
        simp [snapRelease, h1]]
      refine List.pairwise_cons.mpr ⟨?_, hs⟩
      intro p hp
      rcases List.mem_cons.mp hp with rfl | hp2
      · exact h1
      · exact lt_trans h1 (hk p hp2)
    · by_cases h2 : v = k
      · subst h2
        by_cases h3 : c - 1 = 0
        · rw [show snapRelease v ((v, c) :: rest) = rest by
            simp [snapRelease, h1, h3]]
          exact hrest
        · rw [show snapRelease v ((v, c) :: rest) = (v, c - 1) :: rest by
            simp [snapRelease, h1, h3]]
          exact List.pairwise_cons.mpr ⟨hk, hrest⟩
      · rw [show snapRelease v ((k, c) :: rest) = (k, c) :: snapRelease v rest by
          simp [snapRelease, h1, h2]]
        refine List.pairwise_cons.mpr ⟨?_, ih hrest⟩
        intro p hp
        rcases snapRelease_mem v rest p hp with h | h | h
        · rw [h]; omega
        · rw [h]; omega
        · exact hk p h

theorem snapCount_zero_of_forall_lt (l : List (Nat × Nat)) (v : Nat)
    (h : ∀ p ∈ l, v < p.1) : snapCount l v = 0 := by
  apply snapCount_eq_zero_of_ne
  intro p hp
  have := h p hp
  omega

theorem snapInsert_count (v : Nat) (l : List (Nat × Nat))
    (hs : List.Pairwise (fun a b => a.1 < b.1) l) (s : Nat) :
    snapCount (snapInsert v l) s = snapCount l s + (if v = s then 1 else 0) := by
  induction l with
  | nil =>
    rw [show snapInsert v [] = [(v, 1)] from rfl, snapCount_cons]
    by_cases h : v = s <;> simp [snapCount, h]
  | cons q rest ih =>
    obtain ⟨k, c⟩ := q
    obtain ⟨hk, hrest⟩ := List.pairwise_cons.mp hs
    by_cases h1 : v < k
    · rw [show snapInsert v ((k, c) :: rest) = (v, 1) :: (k, c) :: rest by
        simp [snapInsert, h1]]
      rw [snapCount_cons, snapCount_cons]
      by_cases h : v = s
      · subst h
        have hz : snapCount rest v = 0 := by
          apply snapCount_zero_of_forall_lt
          intro p hp
          have := hk p hp
          omega
        rw [if_pos rfl, if_pos rfl, if_neg (by omega : ¬k = v), hz]
      · rw [if_neg h, if_neg h]
        omega
    · by_cases h2 : v = k
      · rw [show snapInsert v ((k, c) :: rest) = (k, c + 1) :: rest by
          simp [snapInsert, h1, h2]]
        rw [snapCount_cons, snapCount_cons]
        by_cases h : k = s
        · rw [if_pos h, if_pos h, if_pos (by omega : v = s)]
        · rw [if_neg h, if_neg h, if_neg (by omega : ¬v = s)]
          omega
      · rw [show snapInsert v ((k, c) :: rest) = (k, c) :: snapInsert v rest by
          simp [snapInsert, h1, h2]]
        rw [snapCount_cons, snapCount_cons]
        by_cases h : k = s
        · rw [if_pos h, if_pos h, if_neg (by omega : ¬v = s)]
          omega
        · rw [if_neg h, if_neg h, ih hrest]

theorem snapRelease_count (v : Nat) (l : List (Nat × Nat))
    (hs : List.Pairwise (fun a b => a.1 < b.1) l) (hpos : 0 < snapCount l v) (s : Nat) :
    snapCount (snapRelease v l) s = snapCount l s - (if v = s then 1 else 0) := by
  induction l with
  | nil => simp [snapCount] at hpos
  | cons q rest ih =>
    obtain ⟨k, c⟩ := q
    obtain ⟨hk, hrest⟩ := List.pairwise_cons.mp hs
    by_cases h1 : v < k
    · exfalso
      rw [snapCount_cons, if_neg (by omega : ¬k = v)] at hpos
      have hz : snapCount rest v = 0 := by
        apply snapCount_zero_of_forall_lt
        intro p hp
        have := hk p hp
        omega
      omega
    · by_cases h2 : v = k
      · subst h2
        rw [snapCount_cons, if_pos rfl] at hpos
        by_cases h3 : c - 1 = 0
        · rw [show snapRelease v ((v, c) :: rest) = rest by
            simp [snapRelease, h1, h3]]
          rw [snapCount_cons]
          have hc1 : c = 1 := by omega
          by_cases h : v = s
          · subst h
            have hz : snapCount rest v = 0 := by
              apply snapCount_zero_of_forall_lt
              intro p hp
              exact hk p hp
            rw [hz, if_pos rfl, if_pos rfl, hc1]
          · rw [if_neg h, if_neg h]
            omega
        · rw [show snapRelease v ((v, c) :: rest) = (v, c - 1) :: rest by
            simp [snapRelease, h1, h3]]
          rw [snapCount_cons, snapCount_cons]
          by_cases h : v = s
          · rw [if_pos h, if_pos h, if_pos h]
          · rw [if_neg h, if_neg h, if_neg h]
            omega
      · rw [show snapRelease v ((k, c) :: rest) = (k, c) :: snapRelease v rest by
          simp [snapRelease, h1, h2]]
        rw [snapCount_cons, snapCount_cons]
        rw [snapCount_cons, if_neg (by omega : ¬k = v)] at hpos
        by_cases h : k = s
        · rw [if_pos h, if_pos h, if_neg (by omega : ¬v = s)]
          omega
        · rw [if_neg h, if_neg h, ih hrest hpos]

theorem snapInsert_pos (v : Nat) (l : List (Nat × Nat))
    (h : ∀ p ∈ l, 0 < p.2) : ∀ p ∈ snapInsert v l, 0 < p.2 := by
  induction l with
  | nil =>
    intro p hp
    simp [snapInsert] at hp
    rw [hp]
    norm_num
  | cons q rest ih =>
    obtain ⟨k, c⟩ := q
    intro p hp
    by_cases h1 : v < k
    · rw [show snapInsert v ((k, c) :: rest) = (v, 1) :: (k, c) :: rest by
        simp [snapInsert, h1]] at hp
      rcases List.mem_cons.mp hp with rfl | hp2
      · norm_num
      · exact h p hp2
    · by_cases h2 : v = k
      · rw [show snapInsert v ((k, c) :: rest) = (k, c + 1) :: rest by
          simp [snapInsert, h1, h2]] at hp
        rcases List.mem_cons.mp hp with rfl | hp2
        · simp
        · exact h p (List.mem_cons_of_mem _ hp2)
      · rw [show snapInsert v ((k, c) :: rest) = (k, c) :: snapInsert v rest by
          simp [snapInsert, h1, h2]] at hp
        rcases List.mem_cons.mp hp with rfl | hp2
        · exact h _ (List.mem_cons_self _ _)
        · exact ih (fun p2 hp2b => h p2 (List.mem_cons_of_mem _ hp2b)) p hp2

theorem snapRelease_pos (v : Nat) (l : List (Nat × Nat))
    (hs : List.Pairwise (fun a b => a.1 < b.1) l) (hpos : 0 < snapCount l v)
    (h : ∀ p ∈ l, 0 < p.2) : ∀ p ∈ snapRelease v l, 0 < p.2 := by
  induction l with
  | nil => simp [snapCount] at hpos
  | cons q rest ih =>
    obtain ⟨k, c⟩ := q
    obtain ⟨hk, hrest⟩ := List.pairwise_cons.mp hs
    intro p hp
    by_cases h1 : v < k
    · exfalso
      rw [snapCount_cons, if_neg (by omega : ¬k = v)] at hpos
      have hz : snapCount rest v = 0 := by
        apply snapCount_zero_of_forall_lt
        intro p2 hp2
        have := hk p2 hp2
        omega
      omega
    · by_cases h2 : v = k
      · subst h2
        by_cases h3 : c - 1 = 0
        · rw [show snapRelease v ((v, c) :: rest) = rest by
            simp [snapRelease, h1, h3]] at hp
          exact h p (List.mem_cons_of_mem _ hp)
        · rw [show snapRelease v ((v, c) :: rest) = (v, c - 1) :: rest by
            simp [snapRelease, h1, h3]] at hp
          rcases List.mem_cons.mp hp with rfl | hp2
          · simp
            omega
          · exact h p (List.mem_cons_of_mem _ hp2)
      · rw [show snapRelease v ((k, c) :: rest) = (k, c) :: snapRelease v rest by
          simp [snapRelease, h1, h2]] at hp
        rw [snapCount_cons, if_neg (by omega : ¬k = v)] at hpos
        rcases List.mem_cons.mp hp with rfl | hp2
        · exact h _ (List.mem_cons_self _ _)
        · exact ih hrest hpos (fun p2 hp2b => h p2 (List.mem_cons_of_mem _ hp2b)) p hp2

theorem snapReach_inv (vs : VersionSetModel) (out : Multiset Nat)
    (h : SnapReach vs out) :
    List.Pairwise (fun a b => a.1 < b.1) vs.snapshotVersions ∧
    (∀ p ∈ vs.snapshotVersions, 0 < p.2) ∧
    (∀ s, snapCount vs.snapshotVersions s = Multiset.count s out) ∧
    vs.lastSeq < 2 ^ 64 ∧
    (∀ s ∈ out, s < 2 ^ 64) ∧
    (∀ p ∈ vs.snapshotVersions, p.1 < 2 ^ 64) := by
  induction h with
  | init =>
    refine ⟨List.Pairwise.nil, by simp, ?_, by norm_num, by simp, by simp⟩
    intro s
    simp [snapCount]
  | alloc n hn hprev ih =>
    exact ⟨ih.1, ih.2.1, ih.2.2.1, hn, ih.2.2.2.2.1, ih.2.2.2.2.2⟩
  | @take vs out hprev ih =>
    obtain ⟨hsort, hpos, hcount, hseq, hout, hkeys⟩ := ih
    refine ⟨snapInsert_sorted _ _ hsort, snapInsert_pos _ _ hpos, ?_, hseq, ?_, ?_⟩
    · intro s
      show snapCount (snapInsert vs.lastSeq vs.snapshotVersions) s
        = Multiset.count s (vs.lastSeq ::ₘ out)
      rw [snapInsert_count _ _ hsort s, hcount s, Multiset.count_cons]
      rcases eq_or_ne vs.lastSeq s with he | he
      · rw [if_pos he, if_pos he.symm]
      · rw [if_neg he, if_neg (Ne.symm he)]
    · intro s hs
      rcases Multiset.mem_cons.mp hs with rfl | hs2
      · exact hseq
      · exact hout s hs2
    · intro p hp
      rcases snapInsert_mem _ _ p hp with hcase | hcase
      · rw [hcase]
        exact hseq
      · exact hkeys p hcase
  | @release ver vs out hprev hmem ih =>
    obtain ⟨hsort, hpos, hcount, hseq, hout, hkeys⟩ := ih
    have hposc : 0 < snapCount vs.snapshotVersions ver := by
      rw [hcount ver]
      exact Multiset.count_pos.mpr hmem
    refine ⟨snapRelease_sorted _ _ hsort, snapRelease_pos _ _ hsort hposc hpos,
      ?_, hseq, ?_, ?_⟩
    · intro s
      show snapCount (snapRelease ver vs.snapshotVersions) s
        = Multiset.count s (out.erase ver)
      rw [snapRelease_count _ _ hsort hposc s, hcount s]
      rcases eq_or_ne ver s with he | he
      · subst he
        rw [if_pos rfl, Multiset.count_erase_self]
      · rw [if_neg he, Multiset.count_erase_of_ne (Ne.symm he)]
        omega
    · intro s hs
      exact hout s (Multiset.mem_of_mem_erase hs)
    · intro p hp
      rcases snapRelease_mem _ _ p hp with hcase | hcase | hcase
      · rw [hcase]
        exact hout ver hmem
      · rw [hcase]
        exact hout ver hmem
      · exact hkeys p hcase

theorem foldr_min_choice (ks : List Nat) (M : Nat) :
    ks.foldr min M = M ∨ ks.foldr min M ∈ ks := by
  induction ks with
  | nil => exact Or.inl rfl
  | cons k rest ih =>
    simp only [List.foldr_cons]
    rcases le_total k (rest.foldr min M) with hc | hc
    · rw [min_eq_left hc]
      exact Or.inr (List.mem_cons_self _ _)
    · rw [min_eq_right hc]
      rcases ih with h2 | h2
      · exact Or.inl h2
      · exact Or.inr (List.mem_cons_of_mem _ h2)

/-- C7: after any interleaving of sequence allocations, snapshot takes and
    guard-paired releases, oldest_snapshot_version() equals the minimum
    sequence among snapshots whose refcount is positive, u64::MAX when no
    snapshot is outstanding; the refcount of each sequence equals its
    outstanding multiplicity, so releasing the last snapshot at the minimum
    removes its entry and advances the minimum. -/
theorem claim_C7_oldestSnapshot (vs : VersionSetModel) (out : Multiset Nat)
    (h : SnapReach vs out) :
    vs.oldestSnapshotVersion = oldestSpec vs ∧
    (∀ s, 0 < snapCount vs.snapshotVersions s ↔ s ∈ out) ∧
    (∀ s, snapCount vs.snapshotVersions s = Multiset.count s out) ∧
    (out = 0 → vs.oldestSnapshotVersion = U64MAX) := by
  obtain ⟨hsort, hpos, hcount, hseq, houtb, hkeys⟩ := snapReach_inv vs out h
  have hfil : vs.snapshotVersions.filter (fun p => decide (0 < p.2))
      = vs.snapshotVersions :=
    List.filter_eq_self.mpr (fun a ha => by simpa using hpos a ha)
  refine ⟨?_, ?_, hcount, ?_⟩
  · cases hm : vs.snapshotVersions with
    | nil =>
      unfold VersionSetModel.oldestSnapshotVersion oldestSpec
      rw [hm]
      simp
    | cons p rest =>
      obtain ⟨k, c⟩ := p
      have ho : vs.oldestSnapshotVersion = k := by
        unfold VersionSetModel.oldestSnapshotVersion
        rw [hm]
      have hspec : oldestSpec vs = min k ((rest.map Prod.fst).foldr min U64MAX) := by
        unfold oldestSpec
        rw [hm] at hfil
        rw [hm, hfil]
        simp
      rw [ho, hspec]
      have hkb : k < 2 ^ 64 := by
        have := hkeys (k, c) (hm ▸ List.mem_cons_self _ _)
        exact this
      have hklt : ∀ q ∈ rest, k < q.1 := by
        rw [hm] at hsort
        exact fun q hq => (List.pairwise_cons.mp hsort).1 q hq
      rcases foldr_min_choice (rest.map Prod.fst) U64MAX with hc | hc
      · rw [hc]
        have hle : k ≤ U64MAX := by
          unfold U64MAX
          omega
        rw [min_eq_left hle]
      · rcases List.mem_map.mp hc with ⟨q, hq, hqe⟩
        have hlt : k < (rest.map Prod.fst).foldr min U64MAX := hqe ▸ hklt q hq
        rw [min_eq_left (le_of_lt hlt)]
  · intro s
    rw [hcount s]
    exact Multiset.count_pos
  · intro h0
    cases hm : vs.snapshotVersions with
    | nil =>
      unfold VersionSetModel.oldestSnapshotVersion
      rw [hm]
    | cons p rest =>
      exfalso
      obtain ⟨k, c⟩ := p
      have hc := hcount k
      rw [hm, snapCount_cons, if_pos rfl, h0] at hc
      have := hpos (k, c) (hm ▸ List.mem_cons_self _ _)
      simp at hc
      omega

/-- Witness for C7: take a snapshot at seq 0, advance to 5, take another,
    release the first; the surviving state has one snapshot at 5 and
    oldest_snapshot_version 5 = oldestSpec. -/
theorem claim_C7_oldestSnapshot_witness :
    SnapReach { lastSeq := 5, snapshotVersions := [(5, 1)] } ({5} : Multiset Nat) ∧
    VersionSetModel.oldestSnapshotVersion
      { lastSeq := 5, snapshotVersions := [(5, 1)] } =
      oldestSpec { lastSeq := 5, snapshotVersions := [(5, 1)] } ∧
    VersionSetModel.oldestSnapshotVersion
      { lastSeq := 5, snapshotVersions := [(5, 1)] } = 5 := by
  have h1 : SnapReach { lastSeq := 0, snapshotVersions := [(0, 1)] }
      ((0 : Nat) ::ₘ 0) := SnapReach.take SnapReach.init
  have h2 : SnapReach { lastSeq := 5, snapshotVersions := [(0, 1)] }
      ((0 : Nat) ::ₘ 0) := SnapReach.alloc 5 (by norm_num) h1
  have h3 : SnapReach { lastSeq := 5, snapshotVersions := [(0, 1), (5, 1)] }
      ((5 : Nat) ::ₘ (0 : Nat) ::ₘ 0) := SnapReach.take h2
  have h4 : SnapReach { lastSeq := 5, snapshotVersions := [(5, 1)] }
      (((5 : Nat) ::ₘ (0 : Nat) ::ₘ 0).erase 0) :=
    SnapReach.release 0 h3 (by decide)
  have hms : (((5 : Nat) ::ₘ (0 : Nat) ::ₘ 0).erase 0) = ({5} : Multiset Nat) := by
    decide
  rw [hms] at h4
  exact ⟨h4, (claim_C7_oldestSnapshot _ _ h4).1, rfl⟩

/-! ## WAL framing lemmas -/

theorem crc32UpdateBit_lt (crc : Nat) (h : crc < 2 ^ 32) :
    crc32UpdateBit crc < 2 ^ 32 := by
  unfold crc32UpdateBit
  have hs : crc >>> 1 < 2 ^ 32 := by
    rw [Nat.shiftRight_eq_div_pow]
    omega
  by_cases hb : crc &&& 1 = 1
  · rw [if_pos hb]
    exact Nat.xor_lt_two_pow hs (by norm_num)
  · rw [if_neg hb]
    exact hs

theorem crc32UpdateBit_iter_lt (n crc : Nat) (h : crc < 2 ^ 32) :
    crc32UpdateBit^[n] crc < 2 ^ 32 := by
  induction n generalizing crc with
  | zero => exact h
  | succ n ih =>
    rw [Function.iterate_succ_apply]
    exact ih _ (crc32UpdateBit_lt crc h)

theorem crc32UpdateByte_lt (crc b : Nat) (h : crc < 2 ^ 32) :
    crc32UpdateByte crc b < 2 ^ 32 := by
  unfold crc32UpdateByte
  apply crc32UpdateBit_iter_lt
  apply Nat.xor_lt_two_pow h
  have : b &&& 0xFF < 256 := by
    have := Nat.and_le_right (n := b) (m := 0xFF)
    omega
  omega

theorem crc32_lt (l : List Nat) : crc32 l < 2 ^ 32 := by
  unfold crc32
  apply Nat.xor_lt_two_pow _ (by norm_num)
  have : ∀ (acc : Nat), acc < 2 ^ 32 → l.foldl crc32UpdateByte acc < 2 ^ 32 := by
    induction l with
    | nil => intro acc h; simpa using h
    | cons b bs ih =>
      intro acc h
      exact ih _ (crc32UpdateByte_lt acc b h)
  exact this _ (by norm_num)

theorem rotA_arith (x : Nat) (h : x < 2 ^ 32) :
    (x >>> 15) ||| ((x <<< 17) % 2 ^ 32) = (x % 2 ^ 15) * 2 ^ 17 + x / 2 ^ 15 := by
  have h1 : (x <<< 17) % 2 ^ 32 = (x % 2 ^ 15) * 2 ^ 17 := by
    rw [Nat.shiftLeft_eq]
    have : (2 : Nat) ^ 32 = 2 ^ 15 * 2 ^ 17 := by norm_num
    rw [this, Nat.mul_mod_mul_right]
  have h2 : x >>> 15 = x / 2 ^ 15 := Nat.shiftRight_eq_div_pow x 15
  rw [h1, h2, Nat.lor_comm]
  have h3 : (x % 2 ^ 15) * 2 ^ 17 = (x % 2 ^ 15) <<< 17 := by
    rw [Nat.shiftLeft_eq]
  rw [h3, shiftLeft_lor_eq]
  · rw [← h3]
  · have : x / 2 ^ 15 < 2 ^ 17 := by
      apply Nat.div_lt_of_lt_mul
      calc x < 2 ^ 32 := h
      _ = 2 ^ 15 * 2 ^ 17 := by norm_num
    exact this

theorem rotB_arith (y : Nat) (h : y < 2 ^ 32) :
    (y >>> 17) ||| ((y <<< 15) % 2 ^ 32) = (y % 2 ^ 17) * 2 ^ 15 + y / 2 ^ 17 := by
  have h1 : (y <<< 15) % 2 ^ 32 = (y % 2 ^ 17) * 2 ^ 15 := by
    rw [Nat.shiftLeft_eq]
    have : (2 : Nat) ^ 32 = 2 ^ 17 * 2 ^ 15 := by norm_num
    rw [this, Nat.mul_mod_mul_right]
  have h2 : y >>> 17 = y / 2 ^ 17 := Nat.shiftRight_eq_div_pow y 17
  rw [h1, h2, Nat.lor_comm]
  have h3 : (y % 2 ^ 17) * 2 ^ 15 = (y % 2 ^ 17) <<< 15 := by
    rw [Nat.shiftLeft_eq]
  rw [h3, shiftLeft_lor_eq]
  · rw [← h3]
  · have : y / 2 ^ 17 < 2 ^ 15 := by
      apply Nat.div_lt_of_lt_mul
      calc y < 2 ^ 32 := h
      _ = 2 ^ 17 * 2 ^ 15 := by norm_num
    exact this

theorem crcMask_lt (c : Nat) : crcMask c < 2 ^ 32 := by
  unfold crcMask
  exact Nat.mod_lt _ (by norm_num)

theorem crcUnmask_lt (m : Nat) : crcUnmask m < 2 ^ 32 := by
  unfold crcUnmask
  have h : (m + 2 ^ 32 - 0xa282ead8) % 2 ^ 32 < 2 ^ 32 := Nat.mod_lt _ (by norm_num)
  rw [rotB_arith _ h]
  have h17 : (m + 2 ^ 32 - 0xa282ead8) % 2 ^ 32 % 2 ^ 17 < 2 ^ 17 :=
    Nat.mod_lt _ (by norm_num)
  have h15 : (m + 2 ^ 32 - 0xa282ead8) % 2 ^ 32 / 2 ^ 17 < 2 ^ 15 := by
    apply Nat.div_lt_of_lt_mul
    calc (m + 2 ^ 32 - 0xa282ead8) % 2 ^ 32 < 2 ^ 32 := h
    _ = 2 ^ 17 * 2 ^ 15 := by norm_num
  have e17 : (2 : Nat) ^ 17 = 131072 := by norm_num
  have e15 : (2 : Nat) ^ 15 = 32768 := by norm_num
  have e32 : (2 : Nat) ^ 32 = 4294967296 := by norm_num
  omega

theorem crcUnmask_crcMask (c : Nat) (h : c < 2 ^ 32) :
    crcUnmask (crcMask c) = c := by
  unfold crcMask crcUnmask
  rw [rotA_arith c h]
  have hlt : (c % 2 ^ 15) * 2 ^ 17 + c / 2 ^ 15 < 2 ^ 32 := by
    have h1 : c % 2 ^ 15 < 2 ^ 15 := Nat.mod_lt _ (by norm_num)
    have h2 : c / 2 ^ 15 < 2 ^ 17 := by
      apply Nat.div_lt_of_lt_mul
      calc c < 2 ^ 32 := h
      _ = 2 ^ 15 * 2 ^ 17 := by norm_num
    have e17 : (2 : Nat) ^ 17 = 131072 := by norm_num
    have e15 : (2 : Nat) ^ 15 = 32768 := by norm_num
    have e32 : (2 : Nat) ^ 32 = 4294967296 := by norm_num
    omega
  have hsub : ((((c % 2 ^ 15) * 2 ^ 17 + c / 2 ^ 15) + 0xa282ead8) % 2 ^ 32
      + 2 ^ 32 - 0xa282ead8) % 2 ^ 32 = (c % 2 ^ 15) * 2 ^ 17 + c / 2 ^ 15 := by
    have e32 : (2 : Nat) ^ 32 = 4294967296 := by norm_num
    omega
  rw [hsub, rotB_arith _ hlt]
  have h2 : c / 2 ^ 15 < 2 ^ 17 := by
    apply Nat.div_lt_of_lt_mul
    calc c < 2 ^ 32 := h
    _ = 2 ^ 15 * 2 ^ 17 := by norm_num
  have e17 : (2 : Nat) ^ 17 = 131072 := by norm_num
  have e15 : (2 : Nat) ^ 15 = 32768 := by norm_num
  omega

theorem crcMask_crcUnmask (m : Nat) (h : m < 2 ^ 32) :
    crcMask (crcUnmask m) = m := by
  unfold crcMask crcUnmask
  simp only
  set y := (m + 2 ^ 32 - 0xa282ead8) % 2 ^ 32 with hy
  have hylt : y < 2 ^ 32 := Nat.mod_lt _ (by norm_num)
  rw [rotB_arith _ hylt]
  have h17 : y % 2 ^ 17 < 2 ^ 17 := Nat.mod_lt _ (by norm_num)
  have h15 : y / 2 ^ 17 < 2 ^ 15 := by
    apply Nat.div_lt_of_lt_mul
    calc y < 2 ^ 32 := hylt
    _ = 2 ^ 17 * 2 ^ 15 := by norm_num
  have hrlt : (y % 2 ^ 17) * 2 ^ 15 + y / 2 ^ 17 < 2 ^ 32 := by omega
  rw [rotA_arith _ hrlt]
  have hmod : ((y % 2 ^ 17) * 2 ^ 15 + y / 2 ^ 17) % 2 ^ 15 = y / 2 ^ 17 := by omega
  have hdiv : ((y % 2 ^ 17) * 2 ^ 15 + y / 2 ^ 17) / 2 ^ 15 = y % 2 ^ 17 := by omega
  rw [hmod, hdiv]
  have hyy : (y % 2 ^ 17) + (y / 2 ^ 17) * 2 ^ 17 = y := by omega
  omega

theorem crcUnmask_inj (a b : Nat) (ha : a < 2 ^ 32) (hb : b < 2 ^ 32)
    (h : crcUnmask a = crcUnmask b) : a = b := by
  have := congrArg crcMask h
  rwa [crcMask_crcUnmask a ha, crcMask_crcUnmask b hb] at this

theorem mkSegment_length (segSize fl : Nat) (payload : List Nat)
    (h : 8 + payload.length ≤ segSize) :
    (mkSegment segSize fl payload).length = segSize := by
  unfold mkSegment segmentHeaderTail
  simp [toLEBytes_length, List.length_replicate, List.length_append]
  omega

theorem preRead_mkSegment (segSize fl : Nat) (payload rest : List Nat)
    (st : SegReaderState)
    (hinput : st.input = mkSegment segSize fl payload ++ rest)
    (hlen : 8 + payload.length ≤ segSize)
    (hlen16 : payload.length < 65536)
    (hfl : fl = 1 ∨ fl = 2 ∨ fl = 3 ∨ fl = 4)
    (hprev1 : st.flags ≠ 1)
    (hprev2 : st.flags = 2 ∨ st.flags = 3 → fl = 3 ∨ fl = 4) :
    preRead segSize st = .ok
      ({ input := rest, done := decide (fl = 4 ∨ fl = 1), flags := fl }, payload) := by
  have hmk := mkSegment_length segSize fl payload hlen
  set crcval := crc32 (toLEBytes 4 0 ++ segmentHeaderTail fl payload.length ++ payload)
    with hcrcval
  set Z := List.replicate (segSize - (8 + payload.length)) (0 : Nat) with hZ
  have hCl : (toLEBytes 4 (crcMask crcval)).length = 4 := toLEBytes_length _ _
  have hL2l : (toLEBytes 2 payload.length).length = 2 := toLEBytes_length _ _
  have hsegR : mkSegment segSize fl payload
      = toLEBytes 4 (crcMask crcval)
        ++ (fl :: 0 :: (toLEBytes 2 payload.length ++ (payload ++ Z))) := by
    simp [mkSegment, segmentHeaderTail, hcrcval, hZ, List.append_assoc]
  have htakeSeg : (mkSegment segSize fl payload ++ rest).take segSize
      = mkSegment segSize fl payload := List.take_left' hmk
  have hdropSeg : (mkSegment segSize fl payload ++ rest).drop segSize = rest :=
    List.drop_left' hmk
  have htake4 : (mkSegment segSize fl payload).take 4 = toLEBytes 4 (crcMask crcval) := by
    rw [hsegR]
    exact List.take_left' hCl
  have hgetD4 : (mkSegment segSize fl payload).getD 4 0 = fl := by
    rw [hsegR, List.getD_append_right _ _ _ 4 (by rw [hCl])]
    simp [hCl]
  have hdrop4 : (mkSegment segSize fl payload).drop 4
      = fl :: 0 :: (toLEBytes 2 payload.length ++ (payload ++ Z)) := by
    rw [hsegR]
    exact List.drop_left' hCl
  have hdrop6 : (mkSegment segSize fl payload).drop 6
      = toLEBytes 2 payload.length ++ (payload ++ Z) := by
    have h64 : (mkSegment segSize fl payload).drop 6
        = ((mkSegment segSize fl payload).drop 4).drop 2 := by
      rw [List.drop_drop]
    rw [h64, hdrop4]
    rfl
  have hlenparse : fromLEBytes (((mkSegment segSize fl payload).drop 6).take 2)
      = payload.length := by
    rw [hdrop6, List.take_left' hL2l, fromLEBytes_toLEBytes]
    have : (256 : Nat) ^ 2 = 65536 := by norm_num
    rw [this]
    omega
  have hcrcstore : crcUnmask (fromLEBytes ((mkSegment segSize fl payload).take 4))
      = crcval := by
    rw [htake4, fromLEBytes_toLEBytes]
    have h1 : crcMask crcval % 256 ^ 4 = crcMask crcval := by
      apply Nat.mod_eq_of_lt
      have := crcMask_lt crcval
      norm_num
      omega
    rw [h1, crcUnmask_crcMask _ (crc32_lt _)]
  have hcrccalc : ((mkSegment segSize fl payload).drop 4).take (payload.length + 4)
      = fl :: 0 :: (toLEBytes 2 payload.length ++ payload) := by
    rw [hdrop4]
    have hassoc : fl :: 0 :: (toLEBytes 2 payload.length ++ (payload ++ Z))
        = (fl :: 0 :: (toLEBytes 2 payload.length ++ payload)) ++ Z := by
      simp [List.append_assoc]
    rw [hassoc]
    apply List.take_left'
    simp [hL2l]
    omega
  have hcrceq : crc32 (toLEBytes 4 0 ++ (fl :: 0 :: (toLEBytes 2 payload.length ++ payload)))
      = crcval := by
    rw [hcrcval]
    congr 1
  have hpending : ((mkSegment segSize fl payload).drop 8).take payload.length
      = payload := by
    have h84 : (mkSegment segSize fl payload).drop 8
        = ((mkSegment segSize fl payload).drop 4).drop 4 := by
      rw [List.drop_drop]
    rw [h84, hdrop4]
    show ((toLEBytes 2 payload.length ++ (payload ++ Z)).drop 2).take payload.length
      = payload
    rw [List.drop_left' hL2l]
    exact List.take_left' rfl
  have hnlt : ¬((mkSegment segSize fl payload ++ rest).length < segSize) := by
    rw [List.length_append, hmk]
    omega
  unfold preRead
  rw [hinput, if_neg hnlt]
  simp only [htakeSeg, hdropSeg, hgetD4, hlenparse, hcrcstore, hcrccalc, hcrceq]
  rw [if_neg (by omega : ¬fl = 0)]
  rw [if_neg (by simp : ¬crcval ≠ crcval)]
  rw [if_neg hprev1]
  rw [if_neg (by
    intro hc
    rcases hc with ⟨hc1, hc2⟩
    exact hc2 (by tauto))]
  rw [hpending]

theorem chunkPayloadAux_ne_nil (cap fuel : Nat) (p : List Nat) :
    chunkPayloadAux cap fuel p ≠ [] := by
  cases fuel with
  | zero => simp [chunkPayloadAux]
  | succ fuel =>
    unfold chunkPayloadAux
    by_cases h : p.length ≤ cap ∨ cap = 0
    · simp [h]
    · simp [h]

theorem chunkPayloadAux_join (cap fuel : Nat) (p : List Nat) :
    (chunkPayloadAux cap fuel p).join = p := by
  induction fuel generalizing p with
  | zero => simp [chunkPayloadAux]
  | succ fuel ih =>
    unfold chunkPayloadAux
    by_cases h : p.length ≤ cap ∨ cap = 0
    · simp [h]
    · rw [if_neg h]
      have ih2 := ih (p.drop cap)
      simp only [List.join] at ih2 ⊢
      rw [List.flatten_cons, ih2, List.take_append_drop]

theorem chunkPayloadAux_le (cap : Nat) (hcap : 0 < cap) :
    ∀ (fuel : Nat) (p : List Nat), p.length ≤ fuel →
      ∀ c ∈ chunkPayloadAux cap fuel p, c.length ≤ cap := by
  intro fuel
  induction fuel with
  | zero =>
    intro p hp c hc
    simp [chunkPayloadAux] at hc
    subst hc
    omega
  | succ fuel ih =>
    intro p hp c hc
    unfold chunkPayloadAux at hc
    by_cases h : p.length ≤ cap ∨ cap = 0
    · rw [if_pos h] at hc
      simp at hc
      subst hc
      omega
    · rw [if_neg h] at hc
      push_neg at h
      rcases List.mem_cons.mp hc with rfl | hc2
      · simp
      · apply ih (p.drop cap) _ c hc2
        simp
        omega

theorem chunkPayload_ne_nil (cap : Nat) (p : List Nat) : chunkPayload cap p ≠ [] :=
  chunkPayloadAux_ne_nil cap p.length p

theorem chunkPayload_join (cap : Nat) (p : List Nat) : (chunkPayload cap p).join = p :=
  chunkPayloadAux_join cap p.length p

theorem chunkPayload_le (cap : Nat) (hcap : 0 < cap) (p : List Nat) :
    ∀ c ∈ chunkPayload cap p, c.length ≤ cap :=
  chunkPayloadAux_le cap hcap p.length p (le_refl _)

theorem writeChunks_length (segSize : Nat) :
    ∀ (chunks : List (List Nat)) (first : Bool),
      (∀ c ∈ chunks, 8 + c.length ≤ segSize) →
      (writeChunks segSize first chunks).length = chunks.length * segSize := by
  intro chunks
  induction chunks with
  | nil =>
    intro first _
    simp [writeChunks]
  | cons c rest ih =>
    intro first h
    cases rest with
    | nil =>
      show (mkSegment segSize (if first then 1 else 4) c).length = 1 * segSize
      rw [mkSegment_length _ _ _ (h c (List.mem_cons_self _ _))]
      omega
    | cons c2 cs =>
      show (mkSegment segSize (if first then 2 else 3) c
          ++ writeChunks segSize false (c2 :: cs)).length = _
      rw [List.length_append, mkSegment_length _ _ _ (h c (List.mem_cons_self _ _)),
        ih false (fun x hx => h x (List.mem_cons_of_mem _ hx))]
      simp [List.length_cons]
      ring

theorem readAllAux_writeChunks (segSize : Nat) (h9 : 9 ≤ segSize)
    (h16 : segSize ≤ 65535) :
    ∀ (chunks : List (List Nat)) (first : Bool) (st : SegReaderState)
      (acc rest : List Nat) (fuel : Nat),
      chunks ≠ [] →
      (∀ c ∈ chunks, c.length ≤ segSize - 8) →
      st.input = writeChunks segSize first chunks ++ rest →
      st.done = false →
      (if first then st.flags = 0 else st.flags = 2 ∨ st.flags = 3) →
      chunks.length + 1 ≤ fuel →
      readAllAux segSize fuel st acc = .ok (acc ++ chunks.join, rest) := by
  intro chunks
  induction chunks with
  | nil =>
    intro first st acc rest fuel hne
    exact absurd rfl hne
  | cons c rest2 ih =>
    intro first st acc rest fuel _ hle hinput hdone hflags hfuel
    obtain ⟨fuel, rfl⟩ : ∃ f, fuel = f + 1 := ⟨fuel - 1, by omega⟩
    have hclen : 8 + c.length ≤ segSize := by
      have := hle c (List.mem_cons_self _ _)
      omega
    have hclen16 : c.length < 65536 := by omega
    cases rest2 with
    | nil =>
      have hwc : writeChunks segSize first [c]
          = mkSegment segSize (if first then 1 else 4) c := rfl
      have hpre := preRead_mkSegment segSize (if first then 1 else 4) c rest st
        (by rw [hinput, hwc]) hclen hclen16
        (by by_cases hf : first <;> simp [hf])
        (by by_cases hf : first <;> simp [hf] at hflags ⊢ <;> omega)
        (by
          intro hc
          by_cases hf : first
          · rw [if_pos hf] at hflags
            omega
          · simp [hf])
      obtain ⟨fuel, rfl⟩ : ∃ f, fuel = f + 1 :=
        ⟨fuel - 1, by simp only [List.length_cons, List.length_nil] at hfuel; omega⟩
      unfold readAllAux
      rw [if_neg (by rw [hdone]; simp), hpre]
      simp only
      unfold readAllAux
      rw [if_pos (by by_cases hf : first <;> simp [hf])]
      simp

    | cons c2 cs =>
      have hwc : writeChunks segSize first (c :: c2 :: cs)
          = mkSegment segSize (if first then 2 else 3) c
            ++ writeChunks segSize false (c2 :: cs) := rfl
      have hpre := preRead_mkSegment segSize (if first then 2 else 3) c
        (writeChunks segSize false (c2 :: cs) ++ rest) st
        (by rw [hinput, hwc, List.append_assoc]) hclen hclen16
        (by by_cases hf : first <;> simp [hf])
        (by by_cases hf : first <;> simp [hf] at hflags ⊢ <;> omega)
        (by
          intro hc
          by_cases hf : first
          · rw [if_pos hf] at hflags
            omega
          · simp [hf])
      unfold readAllAux
      rw [if_neg (by rw [hdone]; simp), hpre]
      simp only
      rw [ih false _ (acc ++ c) rest fuel (by simp)
        (fun x hx => hle x (List.mem_cons_of_mem _ hx)) rfl
        (by by_cases hf : first <;> simp [hf])
        (by by_cases hf : first <;> simp [hf]) (by simp at hfuel ⊢; omega)]
      simp [List.append_assoc]

theorem readRecordAll_writeRecord (segSize : Nat) (h9 : 9 ≤ segSize)
    (h16 : segSize ≤ 65535) (r rest : List Nat) :
    readRecordAll segSize (writeRecord segSize r ++ rest) = .ok (r, rest) := by
  unfold readRecordAll
  have hchunks_ne := chunkPayload_ne_nil (segSize - 8) r
  have hchunks_le := chunkPayload_le (segSize - 8) (by omega) r
  have hjoin := chunkPayload_join (segSize - 8) r
  have hlenw : (writeChunks segSize true (chunkPayload (segSize - 8) r)).length
      = (chunkPayload (segSize - 8) r).length * segSize :=
    writeChunks_length segSize _ true (fun c hc => by have := hchunks_le c hc; omega)
  have hpos : 1 ≤ (chunkPayload (segSize - 8) r).length := by
    cases hh : chunkPayload (segSize - 8) r with
    | nil => exact absurd hh hchunks_ne
    | cons a l => simp
  rw [readAllAux_writeChunks segSize h9 h16 (chunkPayload (segSize - 8) r) true _ [] rest _
      hchunks_ne hchunks_le rfl rfl (by simp) ?_]
  · rw [hjoin]
    simp
  · show (chunkPayload (segSize - 8) r).length + 1
      ≤ (writeRecord segSize r ++ rest).length + 1
    unfold writeRecord
    rw [List.length_append, hlenw]
    have : (chunkPayload (segSize - 8) r).length
        ≤ (chunkPayload (segSize - 8) r).length * segSize := by
      calc (chunkPayload (segSize - 8) r).length
          = (chunkPayload (segSize - 8) r).length * 1 := by omega
      _ ≤ _ := Nat.mul_le_mul_left _ (by omega)
    omega

theorem getD_replicate_zero (n i : Nat) : (List.replicate n (0 : Nat)).getD i 0 = 0 := by
  induction n generalizing i with
  | zero => simp [List.replicate]
  | succ n ih =>
    cases i with
    | zero => simp [List.replicate]
    | succ i => simp [List.replicate, ih]

theorem readRecordAll_zeros (segSize k : Nat) (h1 : 0 < segSize) :
    readRecordAll segSize (List.replicate k 0) = .error .unexpectedEof := by
  unfold readRecordAll
  unfold readAllAux
  rw [if_neg (by simp)]
  have hpre : preRead segSize
      { input := List.replicate k 0, done := false, flags := 0 }
      = .error .unexpectedEof := by
    unfold preRead
    by_cases hk : k < segSize
    · rw [if_pos (by simp [List.length_replicate]; omega)]
    · rw [if_neg (by simp [List.length_replicate]; omega)]
      simp only
      rw [show (List.take segSize (List.replicate k (0 : Nat))).getD 4 0 = 0 by
        rw [List.take_replicate]
        exact getD_replicate_zero _ _]
      rw [if_pos rfl]
  rw [hpre]

theorem writeLog_length_ge (segSize : Nat) (h9 : 9 ≤ segSize)
    (records : List (List Nat)) :
    records.length ≤ (writeLog segSize records).length := by
  induction records with
  | nil => simp [writeLog]
  | cons r rs ih =>
    have h1 : segSize ≤ (writeRecord segSize r).length := by
      unfold writeRecord
      rw [writeChunks_length segSize _ true (fun c hc => by
        have := chunkPayload_le (segSize - 8) (by omega) r c hc
        omega)]
      have hpos : 1 ≤ (chunkPayload (segSize - 8) r).length := by
        cases hh : chunkPayload (segSize - 8) r with
        | nil => exact absurd hh (chunkPayload_ne_nil _ _)
        | cons a l => simp
      calc segSize = 1 * segSize := by omega
      _ ≤ _ := Nat.mul_le_mul_right _ hpos
    have h2 : writeLog segSize (r :: rs) = writeRecord segSize r ++ writeLog segSize rs := by
      simp [writeLog]
    rw [h2, List.length_append]
    simp only [List.length_cons]
    omega

theorem replayAux_writeLog (segSize : Nat) (h9 : 9 ≤ segSize) (h16 : segSize ≤ 65535) :
    ∀ (records : List (List Nat)) (k fuel : Nat),
      records.length + 1 ≤ fuel →
      replayAux segSize fuel (writeLog segSize records ++ List.replicate k 0)
        = records.map .ok := by
  intro records
  induction records with
  | nil =>
    intro k fuel hfuel
    obtain ⟨f, rfl⟩ : ∃ f, fuel = f + 1 := ⟨fuel - 1, by omega⟩
    unfold replayAux
    rw [show writeLog segSize [] ++ List.replicate k (0 : Nat) = List.replicate k 0 by
      simp [writeLog]]
    rw [readRecordAll_zeros segSize k (by omega)]
    simp
  | cons r rs ih =>
    intro k fuel hfuel
    obtain ⟨f, rfl⟩ : ∃ f, fuel = f + 1 :=
      ⟨fuel - 1, by simp only [List.length_cons] at hfuel; omega⟩
    have hsplit : writeLog segSize (r :: rs) ++ List.replicate k 0
        = writeRecord segSize r ++ (writeLog segSize rs ++ List.replicate k 0) := by
      simp [writeLog, List.append_assoc]
    unfold replayAux
    rw [hsplit, readRecordAll_writeRecord segSize h9 h16 r _]
    simp only
    rw [ih k f (by simp only [List.length_cons] at hfuel; omega)]
    simp

/-- C3: any sequence of records written through the 32 KiB segment framing
    replays back as exactly that sequence, in order, and a zero or truncated
    tail of any length ends the iteration cleanly. -/
theorem claim_C3_walRoundTrip (records : List (List Nat)) (k : Nat) :
    replay SEGMENT_SIZE (writeLog SEGMENT_SIZE records ++ List.replicate k 0)
      = records.map .ok := by
  unfold replay
  apply replayAux_writeLog SEGMENT_SIZE (by norm_num [SEGMENT_SIZE])
    (by norm_num [SEGMENT_SIZE]) records k
  have h1 := writeLog_length_ge SEGMENT_SIZE (by norm_num [SEGMENT_SIZE]) records
  rw [List.length_append]
  omega

theorem getD_set_self {α : Type} (l : List α) (i : Nat) (b d : α) (h : i < l.length) :
    (l.set i b).getD i d = b := by
  rw [List.getD_eq_getElem _ _ (by simpa using h)]
  exact List.getElem_set_eq (by simpa using h)

theorem getD_set_ne {α : Type} (l : List α) (i j : Nat) (b d : α) (h : i ≠ j) :
    (l.set i b).getD j d = l.getD j d := by
  by_cases hj : j < l.length
  · rw [List.getD_eq_getElem _ _ (by simpa using hj), List.getD_eq_getElem _ _ hj]
    exact List.getElem_set_ne h _
  · rw [List.getD_eq_default _ _ (by simp; omega), List.getD_eq_default _ _ (by omega)]

theorem replay_headFlip (segSize fl : Nat) (payload tail : List Nat) (i b2 : Nat)
    (h9 : 9 ≤ segSize) (h16 : segSize ≤ 65535)
    (hlen : 8 + payload.length ≤ segSize)
    (hfl : fl = 1 ∨ fl = 2)
    (hi : i < 4) (hb2 : b2 < 256)
    (hne : b2 ≠ (mkSegment segSize fl payload).getD i 0) :
    replay segSize ((mkSegment segSize fl payload ++ tail).set i b2)
      = [.error (.io .invalidData)] := by
  have hmk := mkSegment_length segSize fl payload hlen
  set crcval := crc32 (toLEBytes 4 0 ++ segmentHeaderTail fl payload.length ++ payload)
    with hcrcval
  set Z := List.replicate (segSize - (8 + payload.length)) (0 : Nat) with hZ
  set C := toLEBytes 4 (crcMask crcval) with hC
  set R := fl :: 0 :: (toLEBytes 2 payload.length ++ (payload ++ Z)) with hR
  have hCl : C.length = 4 := toLEBytes_length _ _
  have hL2l : (toLEBytes 2 payload.length).length = 2 := toLEBytes_length _ _
  have hsegR : mkSegment segSize fl payload = C ++ R := by
    simp [mkSegment, segmentHeaderTail, hcrcval, hZ, hC, hR, List.append_assoc]
  set C2 := C.set i b2 with hC2
  have hC2l : C2.length = 4 := by
    rw [hC2, List.length_set, hCl]
  have hset : (mkSegment segSize fl payload ++ tail).set i b2
      = C2 ++ (R ++ tail) := by
    rw [hsegR, List.append_assoc, hC2]
    exact List.set_append_left i b2 (by omega)
  have hC2Rlen : (C2 ++ R).length = segSize := by
    have : (C ++ R).length = segSize := by rw [← hsegR]; exact hmk
    simp only [List.length_append] at this ⊢
    omega
  have htakeSeg : ((C2 ++ R) ++ tail).take segSize = C2 ++ R := List.take_left' hC2Rlen
  have htake4 : (C2 ++ R).take 4 = C2 := List.take_left' hC2l
  have hgetD4 : (C2 ++ R).getD 4 0 = fl := by
    rw [List.getD_append_right _ _ _ 4 (by rw [hC2l])]
    rw [hC2l]
    simp [hR]
  have hdrop4 : (C2 ++ R).drop 4 = R := List.drop_left' hC2l
  have hdrop6 : (C2 ++ R).drop 6 = toLEBytes 2 payload.length ++ (payload ++ Z) := by
    have h64 : (C2 ++ R).drop 6 = ((C2 ++ R).drop 4).drop 2 := by rw [List.drop_drop]
    rw [h64, hdrop4]
    simp [hR]
  have hlenparse : fromLEBytes (((C2 ++ R).drop 6).take 2) = payload.length := by
    rw [hdrop6, List.take_left' hL2l, fromLEBytes_toLEBytes]
    have : (256 : Nat) ^ 2 = 65536 := by norm_num
    rw [this]
    omega
  have hcrccalc : ((C2 ++ R).drop 4).take (payload.length + 4)
      = fl :: 0 :: (toLEBytes 2 payload.length ++ payload) := by
    have hassoc : R = (fl :: 0 :: (toLEBytes 2 payload.length ++ payload)) ++ Z := by
      rw [hR]
      simp [List.append_assoc]
    rw [hdrop4, hassoc]
    apply List.take_left'
    simp [hL2l]
    omega
  have hcrceq : crc32 (toLEBytes 4 0 ++ (fl :: 0 :: (toLEBytes 2 payload.length ++ payload)))
      = crcval := by
    rw [hcrcval]
    congr 1
  have hCb : ∀ b ∈ C, b < 256 := fun b hb => toLEBytes_lt _ _ b (hC ▸ hb)
  have hC2b : ∀ b ∈ C2, b < 256 := by
    intro b hb
    rcases List.mem_or_eq_of_mem_set (hC2 ▸ hb) with hmem | rfl
    · exact hCb b hmem
    · exact hb2
  have hfromC : fromLEBytes C = crcMask crcval := by
    rw [hC, fromLEBytes_toLEBytes]
    apply Nat.mod_eq_of_lt
    have := crcMask_lt crcval
    norm_num
    omega
  have hfromne : fromLEBytes C2 ≠ fromLEBytes C := by
    intro heq
    have hCC : C2 = C := fromLEBytes_inj _ _ (by rw [hC2l, hCl]) hC2b hCb heq
    have hgd : C.getD i 0 = b2 := by
      rw [← hCC, hC2]
      exact getD_set_self C i b2 0 (by omega)
    apply hne
    rw [hsegR, List.getD_append _ _ _ i (by omega), hgd]
  have hC2lt : fromLEBytes C2 < 2 ^ 32 := by
    have h := fromLEBytes_lt C2 hC2b
    rw [hC2l] at h
    norm_num at h
    omega
  have hClt : fromLEBytes C < 2 ^ 32 := by
    rw [hfromC]
    exact crcMask_lt crcval
  have hstored_ne : crcUnmask (fromLEBytes C2) ≠ crcval := by
    intro heq
    apply hfromne
    apply crcUnmask_inj _ _ hC2lt hClt
    rw [heq, hfromC, crcUnmask_crcMask _ (crc32_lt _)]
  have hnlt : ¬(((C2 ++ R) ++ tail).length < segSize) := by
    rw [List.length_append, hC2Rlen]
    omega
  have hpre : preRead segSize
      { input := (C2 ++ R) ++ tail, done := false, flags := 0 }
      = .error .invalidData := by
    simp only [preRead]
    rw [if_neg hnlt]
    simp only [htakeSeg, htake4, hgetD4, hlenparse, hcrccalc, hcrceq]
    rw [if_neg (by rcases hfl with h | h <;> omega : ¬fl = 0)]
    rw [if_pos hstored_ne]
  have hrra : readRecordAll segSize ((C2 ++ R) ++ tail) = .error .invalidData := by
    have hpre2 : preRead segSize
        { input := C2 ++ (R ++ tail), done := false, flags := 0 }
        = .error .invalidData := by
      rw [← List.append_assoc]
      exact hpre
    unfold readRecordAll readAllAux
    simp [hpre2]
  unfold replay
  rw [hset, ← List.append_assoc]
  unfold replayAux
  rw [hrra]
  simp

/-- A record that fits the payload capacity of one segment is kept as a single
    chunk. -/
theorem chunkPayload_small (cap : Nat) (p : List Nat) (h : p.length ≤ cap) :
    chunkPayload cap p = [p] := by
  unfold chunkPayload
  cases hl : p.length with
  | zero => rfl
  | succ n =>
    unfold chunkPayloadAux
    rw [if_pos (Or.inl h)]

/-- A log beginning with a record that fits one segment starts with a single
    FULL segment holding that record. -/
theorem writeLog_single_chunk (segSize : Nat) (r : List Nat) (rs : List (List Nat))
    (h : r.length + 8 ≤ segSize) :
    writeLog segSize (r :: rs) = mkSegment segSize 1 r ++ writeLog segSize rs := by
  unfold writeLog
  rw [List.map_cons]
  simp only [List.join]
  rw [List.flatten_cons]
  congr 1
  unfold writeRecord
  rw [chunkPayload_small _ _ (by omega)]
  rfl

/-- C4 (corrected): corrupting a single byte of the stored CRC field of the
    first segment of a written log makes replay fail, but the error surfaced
    by LogReplayerIter::next for the affected record is
    StorageError::Io(InvalidData) — the Io wrapper around the reader's
    io::ErrorKind::InvalidData — and never a DataCorrupt variant: err.rs does
    not declare DataCorrupt at all, so no replay error can belong to that
    class.  (The original claim is also too broad in its "any flip" clause:
    a flip of the flags byte to zero truncates silently and padding flips are
    invisible; this theorem settles the error-class part on the CRC field.) -/
theorem claim_C4_crcFlipIoInvalidData (r : List Nat) (rs : List (List Nat))
    (i b2 : Nat)
    (hr : r.length + 8 ≤ SEGMENT_SIZE)
    (hi : i < 4) (hb2 : b2 < 256)
    (hne : b2 ≠ (writeLog SEGMENT_SIZE (r :: rs)).getD i 0) :
    replay SEGMENT_SIZE ((writeLog SEGMENT_SIZE (r :: rs)).set i b2)
        = [.error (.io .invalidData)]
      ∧ ∀ e : StorageError,
          .error e ∈ replay SEGMENT_SIZE ((writeLog SEGMENT_SIZE (r :: rs)).set i b2)
          → e ≠ .dataCorrupt := by
  have hlog := writeLog_single_chunk SEGMENT_SIZE r rs hr
  have hne2 : b2 ≠ (mkSegment SEGMENT_SIZE 1 r).getD i 0 := by
    rw [hlog] at hne
    rwa [List.getD_append _ _ _ i
      (by rw [mkSegment_length _ _ _ (by omega)]; omega)] at hne
  have hmain := replay_headFlip SEGMENT_SIZE 1 r (writeLog SEGMENT_SIZE rs) i b2
    (by norm_num [SEGMENT_SIZE]) (by norm_num [SEGMENT_SIZE]) (by omega)
    (Or.inl rfl) hi hb2 hne2
  constructor
  · rw [hlog]
    exact hmain
  · intro e he
    rw [hlog, hmain] at he
    simp only [List.mem_singleton, Except.error.injEq] at he
    rw [he]
    intro hcon
    cases hcon

set_option maxRecDepth 40000 in
/-- C4 witness: flipping the low byte of the stored CRC of a one-record log
    (record "abc") makes replay surface exactly Io(InvalidData). -/
theorem claim_C4_crcFlipIoInvalidData_witness :
    ([97, 98, 99] : List Nat).length + 8 ≤ SEGMENT_SIZE
    ∧ ((writeLog SEGMENT_SIZE [[97, 98, 99]]).getD 0 0 + 1) % 256
        ≠ (writeLog SEGMENT_SIZE [[97, 98, 99]]).getD 0 0
    ∧ replay SEGMENT_SIZE ((writeLog SEGMENT_SIZE [[97, 98, 99]]).set 0
          (((writeLog SEGMENT_SIZE [[97, 98, 99]]).getD 0 0 + 1) % 256))
        = [.error (.io .invalidData)] :=
  ⟨by decide, by decide,
   (claim_C4_crcFlipIoInvalidData [97, 98, 99] [] 0
      (((writeLog SEGMENT_SIZE [[97, 98, 99]]).getD 0 0 + 1) % 256)
      (by decide) (by decide) (by decide) (by decide)).1⟩

set_option maxRecDepth 40000 in
/-- C4 counterexample to the original claim: a concrete single-byte
    corruption of a written log is rejected with StorageError::Io(InvalidData),
    which is a different error class from any DataCorrupt variant (err.rs
    declares none). -/
theorem claim_C4_counterexample :
    replay SEGMENT_SIZE ((writeLog SEGMENT_SIZE [[97, 98, 99]]).set 0
        (((writeLog SEGMENT_SIZE [[97, 98, 99]]).getD 0 0 + 1) % 256))
      = [.error (.io .invalidData)]
    ∧ StorageError.io .invalidData ≠ StorageError.dataCorrupt := by
  constructor
  · have hlog := writeLog_single_chunk SEGMENT_SIZE [97, 98, 99] [] (by decide)
    rw [hlog]
    refine replay_headFlip SEGMENT_SIZE 1 [97, 98, 99] (writeLog SEGMENT_SIZE []) 0 _
      ?_ ?_ ?_ (Or.inl rfl) ?_ ?_ ?_
    all_goals decide
  · intro hcon
    cases hcon

/-! ## Merged-iterator lemmas (C2) -/

theorem mergedBefore_irrefl (a : MergedEnt) : ¬ mergedBefore a a := by
  intro h
  rcases h with h | ⟨_, h⟩
  · exact lt_irrefl _ h
  · exact lt_irrefl _ h

theorem mergedBefore_trans {a b c : MergedEnt}
    (h1 : mergedBefore a b) (h2 : mergedBefore b c) : mergedBefore a c := by
  rcases h1 with h1 | ⟨e1, s1⟩ <;> rcases h2 with h2 | ⟨e2, s2⟩
  · exact Or.inl (lt_trans h1 h2)
  · exact Or.inl (e2 ▸ h1)
  · exact Or.inl (by rw [e1]; exact h2)
  · exact Or.inr ⟨e1.trans e2, lt_trans s2 s1⟩

theorem not_mergedBefore_iff (a b : MergedEnt) :
    ¬ mergedBefore a b ↔ mergedWeak b a := by
  unfold mergedBefore mergedWeak
  constructor
  · intro hn
    rcases lt_trichotomy a.key b.key with h | h | h
    · exact absurd (Or.inl h) hn
    · by_cases hs : b.seq < a.seq
      · exact absurd (Or.inr ⟨h, hs⟩) hn
      · exact Or.inr ⟨h.symm, by omega⟩
    · exact Or.inl h
  · intro hw hmb
    rcases hmb with h | ⟨he, hs⟩
    · rcases hw with hw | ⟨hwe, _⟩
      · exact absurd (lt_trans h hw) (lt_irrefl _)
      · rw [hwe] at h
        exact lt_irrefl _ h
    · rcases hw with hw | ⟨_, hws⟩
      · rw [he] at hw
        exact lt_irrefl _ hw
      · omega

theorem mergedWeak_refl (a : MergedEnt) : mergedWeak a a := Or.inr ⟨rfl, le_refl _⟩

theorem mergedWeak_trans {a b c : MergedEnt}
    (h1 : mergedWeak a b) (h2 : mergedWeak b c) : mergedWeak a c := by
  rcases h1 with h1 | ⟨e1, s1⟩ <;> rcases h2 with h2 | ⟨e2, s2⟩
  · exact Or.inl (lt_trans h1 h2)
  · exact Or.inl (e2 ▸ h1)
  · exact Or.inl (by rw [e1]; exact h2)
  · exact Or.inr ⟨e1.trans e2, le_trans s2 s1⟩

theorem mergedBefore_weak {a b : MergedEnt} (h : mergedBefore a b) :
    mergedWeak a b := by
  rcases h with h | ⟨he, hs⟩
  · exact Or.inl h
  · exact Or.inr ⟨he, le_of_lt hs⟩

theorem mergedWeak_strict {a b : MergedEnt} (hw : mergedWeak a b)
    (hd : distKS a b) : mergedBefore a b := by
  rcases hw with h | ⟨he, hs⟩
  · exact Or.inl h
  · right
    refine ⟨he, ?_⟩
    rcases Nat.lt_or_ge b.seq a.seq with h2 | h2
    · exact h2
    · exact absurd ⟨he, by omega⟩ hd

theorem distKS_symm {a b : MergedEnt} (h : distKS a b) : distKS b a := by
  intro ⟨h1, h2⟩
  exact h ⟨h1.symm, h2.symm⟩

theorem heapBestAux_mem (rest : List (MergedEnt × Nat)) :
    ∀ best, heapBestAux best rest ∈ best :: rest := by
  induction rest with
  | nil =>
    intro best
    simp [heapBestAux]
  | cons x rs ih =>
    intro best
    unfold heapBestAux
    by_cases h : mergedBefore x.1 best.1
    · rw [if_pos h]
      have h2 := ih x
      simp only [List.mem_cons] at h2 ⊢
      tauto
    · rw [if_neg h]
      have h2 := ih best
      simp only [List.mem_cons] at h2 ⊢
      tauto

theorem heapBestAux_weak (rest : List (MergedEnt × Nat)) :
    ∀ best, ∀ y ∈ best :: rest, mergedWeak (heapBestAux best rest).1 y.1 := by
  induction rest with
  | nil =>
    intro best y hy
    rw [List.mem_singleton] at hy
    subst hy
    exact mergedWeak_refl _
  | cons x rs ih =>
    intro best y hy
    unfold heapBestAux
    by_cases h : mergedBefore x.1 best.1
    · rw [if_pos h]
      rcases List.mem_cons.mp hy with rfl | hy2
      · exact mergedWeak_trans (ih x x (List.mem_cons_self _ _)) (mergedBefore_weak h)
      · exact ih x y hy2
    · rw [if_neg h]
      rcases List.mem_cons.mp hy with rfl | hy2
      · exact ih y y (List.mem_cons_self _ _)
      · rcases List.mem_cons.mp hy2 with rfl | hy3
        · exact mergedWeak_trans (ih best best (List.mem_cons_self _ _))
            ((not_mergedBefore_iff _ _).mp h)
        · exact ih best y (List.mem_cons_of_mem _ hy3)

theorem stateEnts_length (st : MergedIterState) :
    (stateEnts st).length = mergedTotal st := by
  simp [stateEnts, mergedTotal, List.length_flatten]

theorem getD_mem {α : Type} (l : List α) (n : Nat) (d : α) (h : n < l.length) :
    l.getD n d ∈ l := by
  rw [List.getD_eq_getElem _ _ h]
  exact List.getElem_mem h

theorem getD_map_tail {α : Type} (l : List (List α)) (n : Nat) (h : n < l.length) :
    (l.map List.tail).getD n [] = (l.getD n []).tail := by
  rw [List.getD_eq_getElem _ _ (by simpa using h), List.getD_eq_getElem _ _ h]
  exact List.getElem_map _

theorem flatten_set_ms {α : Type} (its : List (List α)) :
    ∀ (idx : Nat) (t : List α), idx < its.length →
      (↑((its.set idx t).flatten) + ↑(its.getD idx []) : Multiset α)
        = ↑t + ↑its.flatten := by
  induction its with
  | nil =>
    intro idx t h
    simp at h
  | cons a as ih =>
    intro idx t h
    cases idx with
    | zero =>
      simp only [List.set_cons_zero, List.getD_cons_zero, List.flatten_cons]
      simp only [← Multiset.coe_add]
      ac_rfl
    | succ n =>
      simp only [List.set_cons_succ, List.getD_cons_succ, List.flatten_cons]
      simp only [← Multiset.coe_add]
      have ih2 := ih n t (by simpa using h)
      rw [add_assoc, ih2]
      ac_rfl

theorem heapPop_spec (l : List (MergedEnt × Nat)) (hne : l ≠ []) :
    ∃ b, heapPop l = some (b, l.erase b) ∧ b ∈ l
      ∧ ∀ y ∈ l, mergedWeak b.1 y.1 := by
  cases l with
  | nil => exact absurd rfl hne
  | cons x rest =>
    exact ⟨heapBestAux x rest, rfl, heapBestAux_mem rest x, heapBestAux_weak rest x⟩

theorem initHeap_lb (its : List (List MergedEnt)) :
    ∀ (n : Nat) (p : MergedEnt × Nat),
      p ∈ (List.enumFrom n its).filterMap
            (fun q => q.2.head?.map (fun e => (e, q.1))) →
      n ≤ p.2 ∧ p.2 < n + its.length
        ∧ (its.getD (p.2 - n) []).head? = some p.1 := by
  induction its with
  | nil =>
    intro n p hp
    simp [List.enumFrom] at hp
  | cons a as ih =>
    intro n p hp
    rw [List.enumFrom_cons] at hp
    cases a with
    | nil =>
      rw [List.filterMap_cons_none (by rfl)] at hp
      obtain ⟨h1, h2, h3⟩ := ih (n + 1) p hp
      refine ⟨by omega, by simp; omega, ?_⟩
      have hk : p.2 - n = (p.2 - (n + 1)) + 1 := by omega
      rw [hk, List.getD_cons_succ]
      exact h3
    | cons h t =>
      rw [List.filterMap_cons_some (by rfl)] at hp
      rcases List.mem_cons.mp hp with rfl | hp2
      · refine ⟨le_refl _, by simp, ?_⟩
        simp
      · obtain ⟨h1, h2, h3⟩ := ih (n + 1) p hp2
        refine ⟨by omega, by simp; omega, ?_⟩
        have hk : p.2 - n = (p.2 - (n + 1)) + 1 := by omega
        rw [hk, List.getD_cons_succ]
        exact h3

theorem initHeap_mem (its : List (List MergedEnt)) (n i : Nat) (e : MergedEnt)
    (hi : i < its.length) (he : (its.getD i []).head? = some e) :
    (e, n + i) ∈ (List.enumFrom n its).filterMap
        (fun q => q.2.head?.map (fun e => (e, q.1))) := by
  rw [List.mem_filterMap]
  have hlen : i < (List.enumFrom n its).length := by simpa using hi
  refine ⟨(n + i, its[i]), ?_, ?_⟩
  · have hg : (List.enumFrom n its)[i] = (n + i, its[i]) :=
      List.getElem_enumFrom _ _ _ hlen
    rw [← hg]
    exact List.getElem_mem hlen
  · rw [List.getD_eq_getElem _ _ hi] at he
    simp [he]

theorem initHeap_snds (its : List (List MergedEnt)) :
    ∀ (n : Nat),
      (((List.enumFrom n its).filterMap
          (fun q => q.2.head?.map (fun e => (e, q.1)))).map Prod.snd).Pairwise (· < ·) := by
  induction its with
  | nil =>
    intro n
    simp [List.enumFrom]
  | cons a as ih =>
    intro n
    rw [List.enumFrom_cons]
    cases a with
    | nil =>
      rw [List.filterMap_cons_none (by rfl)]
      exact ih (n + 1)
    | cons h t =>
      simp only [List.filterMap_cons, List.head?_cons, Option.map_some']
      rw [List.map_cons]
      refine List.Pairwise.cons ?_ (ih (n + 1))
      intro m hm
      obtain ⟨p, hp, rfl⟩ := List.mem_map.mp hm
      have := (initHeap_lb as (n + 1) p hp).1
      omega

theorem mergedInit_ents_ms (its : List (List MergedEnt)) :
    ∀ n, (↑(((List.enumFrom n its).filterMap
          (fun p => p.2.head?.map (fun e => (e, p.1)))).map Prod.fst)
        + ↑(its.map List.tail).flatten : Multiset MergedEnt) = ↑its.flatten := by
  induction its with
  | nil =>
    intro n
    simp [List.enumFrom]
  | cons a as ih =>
    intro n
    rw [List.enumFrom_cons]
    cases a with
    | nil =>
      rw [List.filterMap_cons_none (by rfl)]
      simp only [List.map_cons, List.flatten_cons, List.tail_nil, List.nil_append]
      exact ih (n + 1)
    | cons h t =>
      rw [List.filterMap_cons_some (by rfl)]
      simp only [List.map_cons, List.flatten_cons, List.tail_cons, List.cons_append]
      simp only [← Multiset.cons_coe, ← Multiset.coe_add]
      simp only [← Multiset.singleton_add]
      have ih2 := ih (n + 1)
      rw [← ih2]
      ac_rfl

theorem mergedInit_ms (its : List (List MergedEnt)) :
    (↑(stateEnts (mergedInit its)) : Multiset MergedEnt) = ↑its.flatten := by
  simp only [stateEnts, mergedInit]
  rw [← Multiset.coe_add]
  exact mergedInit_ents_ms its 0

theorem mergedInit_inv (its : List (List MergedEnt))
    (hsort : ∀ l ∈ its, l.Pairwise mergedBefore)
    (hdist : its.flatten.Pairwise distKS) :
    MergedInv (mergedInit its) := by
  have hheap : (mergedInit its).heap = (List.enumFrom 0 its).filterMap
      (fun q => q.2.head?.map (fun e => (e, q.1))) := rfl
  have hiters : (mergedInit its).iters = its.map List.tail := rfl
  refine ⟨?_, ?_, ?_, ?_, ?_, ?_⟩
  · intro p hp
    rw [hheap] at hp
    have h2 := (initHeap_lb its 0 p hp).2.1
    rw [hiters]
    simpa using h2
  · intro p hp x hx
    rw [hheap] at hp
    obtain ⟨-, hlt, hhd⟩ := initHeap_lb its 0 p hp
    simp only [Nat.sub_zero] at hhd
    rw [hiters] at hx
    rw [getD_map_tail its p.2 (by omega)] at hx
    have hsmem : its.getD p.2 [] ∈ its := getD_mem its p.2 [] (by omega)
    have hsort2 := hsort _ hsmem
    cases hs2 : its.getD p.2 [] with
    | nil =>
      rw [hs2] at hhd
      simp at hhd
    | cons h0 t0 =>
      rw [hs2] at hhd hx hsort2
      simp only [List.head?_cons, Option.some.injEq] at hhd
      rw [List.tail_cons] at hx
      rcases List.pairwise_cons.mp hsort2 with ⟨hhead, -⟩
      have h3 := hhead x hx
      rw [hhd] at h3
      exact h3
  · rw [hheap]
    exact List.Pairwise.imp (fun hab => Nat.ne_of_lt hab) (initHeap_snds its 0)
  · intro i hi hnone
    rw [hiters] at hi ⊢
    simp only [List.length_map] at hi
    rw [getD_map_tail its i hi]
    cases hsrc : its.getD i [] with
    | nil => rfl
    | cons h0 t0 =>
      exfalso
      have hhd : (its.getD i []).head? = some h0 := by rw [hsrc]; rfl
      have hmem := initHeap_mem its 0 i h0 hi hhd
      have h4 := hnone (h0, 0 + i) (by rw [hheap]; exact hmem)
      exact h4 (show (h0, 0 + i).2 = i by simp)
  · intro l hl
    rw [hiters] at hl
    obtain ⟨l0, hl0, rfl⟩ := List.mem_map.mp hl
    cases l0 with
    | nil => simp
    | cons h0 t0 =>
      have h5 := hsort _ hl0
      rw [List.tail_cons]
      exact (List.pairwise_cons.mp h5).2
  · have hperm : stateEnts (mergedInit its) |>.Perm its.flatten :=
      Multiset.coe_eq_coe.mp (mergedInit_ms its)
    exact (List.Perm.pairwise_iff (fun h => distKS_symm h) hperm).mpr hdist

theorem perm_cons_erase_beq {α : Type} [BEq α] [LawfulBEq α] {a : α} {l : List α}
    (h : a ∈ l) : l.Perm (a :: l.erase a) := by
  induction l with
  | nil => simp at h
  | cons x xs ih =>
    by_cases hx : x = a
    · subst hx
      rw [List.erase_cons_head]
    · rw [List.erase_cons_tail (by simpa using fun he => hx (by simpa using he))]
      have hmem : a ∈ xs := by
        rcases List.mem_cons.mp h with h1 | h1
        · exact absurd h1.symm hx
        · exact h1
      exact (List.Perm.cons x (ih hmem)).trans (List.Perm.swap a x _)

theorem erase_snd_ne (heap : List (MergedEnt × Nat)) (e : MergedEnt) (idx : Nat)
    (hnodup : (heap.map Prod.snd).Nodup) (hmem : (e, idx) ∈ heap) :
    ∀ p ∈ heap.erase (e, idx), p.2 ≠ idx := by
  intro p hp hpidx
  have hpheap : p ∈ heap := List.mem_of_mem_erase hp
  have hpe : p = (e, idx) :=
    List.inj_on_of_nodup_map hnodup hpheap hmem (by simp [hpidx])
  have hnd : heap.Nodup := List.Nodup.of_map Prod.snd hnodup
  rw [hpe] at hp
  exact ((hnd.mem_erase_iff.mp hp).1) rfl

theorem pop_weak_all (st : MergedIterState) (e : MergedEnt)
    (hprec : ∀ p ∈ st.heap, ∀ x ∈ st.iters.getD p.2 [], mergedBefore p.1 x)
    (hempty : ∀ i, i < st.iters.length → (∀ p ∈ st.heap, p.2 ≠ i) →
      st.iters.getD i [] = [])
    (hweak : ∀ y ∈ st.heap, mergedWeak e y.1) :
    ∀ y ∈ stateEnts st, mergedWeak e y := by
  intro y hy
  rcases List.mem_append.mp hy with hy1 | hy2
  · obtain ⟨p, hp, rfl⟩ := List.mem_map.mp hy1
    exact hweak p hp
  · obtain ⟨l, hl, hyl⟩ := List.mem_flatten.mp hy2
    obtain ⟨j, hj, heq⟩ := List.mem_iff_getElem.mp hl
    have hgd : st.iters.getD j [] = l := by
      rw [List.getD_eq_getElem _ _ hj, heq]
    by_cases hq : ∃ q ∈ st.heap, q.2 = j
    · obtain ⟨q, hqmem, hqj⟩ := hq
      have hqprec := hprec q hqmem
      rw [hqj, hgd] at hqprec
      exact mergedWeak_trans (hweak q hqmem) (mergedBefore_weak (hqprec y hyl))
    · push_neg at hq
      have h0 := hempty j hj hq
      rw [hgd] at h0
      rw [h0] at hyl
      simp at hyl

theorem step_ms_nil (heap : List (MergedEnt × Nat)) (its : List (List MergedEnt))
    (e : MergedEnt) (idx : Nat) (hmem : (e, idx) ∈ heap) (hidx : idx < its.length)
    (hv : its.getD idx [] = []) :
    (↑(heap.map Prod.fst) + ↑its.flatten : Multiset MergedEnt)
      = e ::ₘ (↑((heap.erase (e, idx)).map Prod.fst)
          + ↑((its.set idx []).flatten)) := by
  have hp : heap.Perm ((e, idx) :: heap.erase (e, idx)) := perm_cons_erase_beq hmem
  have h1 : (↑(heap.map Prod.fst) : Multiset MergedEnt)
      = e ::ₘ ↑((heap.erase (e, idx)).map Prod.fst) := by
    have h2 := Multiset.coe_eq_coe.mpr (hp.map Prod.fst)
    rw [h2, List.map_cons, ← Multiset.cons_coe]
  have h3 := flatten_set_ms its idx [] hidx
  rw [hv] at h3
  simp only [Multiset.coe_nil, add_zero, zero_add] at h3
  rw [h1, h3, Multiset.cons_add]

theorem step_ms_cons (heap : List (MergedEnt × Nat)) (its : List (List MergedEnt))
    (e h0 : MergedEnt) (t0 : List MergedEnt) (idx : Nat)
    (hmem : (e, idx) ∈ heap) (hidx : idx < its.length)
    (hv : its.getD idx [] = h0 :: t0) :
    (↑(heap.map Prod.fst) + ↑its.flatten : Multiset MergedEnt)
      = e ::ₘ (↑(((h0, idx) :: heap.erase (e, idx)).map Prod.fst)
          + ↑((its.set idx t0).flatten)) := by
  have hp : heap.Perm ((e, idx) :: heap.erase (e, idx)) := perm_cons_erase_beq hmem
  have h1 : (↑(heap.map Prod.fst) : Multiset MergedEnt)
      = e ::ₘ ↑((heap.erase (e, idx)).map Prod.fst) := by
    have h2 := Multiset.coe_eq_coe.mpr (hp.map Prod.fst)
    rw [h2, List.map_cons, ← Multiset.cons_coe]
  have h3 := flatten_set_ms its idx t0 hidx
  rw [hv] at h3
  rw [← Multiset.cons_coe, ← Multiset.singleton_add] at h3
  have h4 : (↑((its.set idx t0).flatten) + {h0}) + ↑t0
      = (↑its.flatten + ↑t0 : Multiset MergedEnt) := by
    rw [add_assoc, h3, add_comm]
  have h5 : (↑((its.set idx t0).flatten) + {h0} : Multiset MergedEnt) = ↑its.flatten :=
    add_right_cancel h4
  rw [h1, ← h5]
  simp only [List.map_cons, ← Multiset.cons_coe, ← Multiset.singleton_add]
  ac_rfl

theorem step_inv_nil (st : MergedIterState) (e : MergedEnt) (idx : Nat)
    (lk : Option (List Nat))
    (hinv : MergedInv st) (hmem : (e, idx) ∈ st.heap)
    (hv : st.iters.getD idx [] = []) :
    MergedInv { iters := st.iters.set idx [],
                heap := st.heap.erase (e, idx), lastKey := lk }
    ∧ (↑(stateEnts st) : Multiset MergedEnt)
        = e ::ₘ ↑(stateEnts
            { iters := st.iters.set idx [],
              heap := st.heap.erase (e, idx), lastKey := lk }) := by
  obtain ⟨hlen, hprec, hnodup, hempty, hsorted, hdist⟩ := hinv
  have hidx : idx < st.iters.length := hlen _ hmem
  have hne := erase_snd_ne st.heap e idx hnodup hmem
  have hnd : st.heap.Nodup := List.Nodup.of_map Prod.snd hnodup
  have hse : (↑(stateEnts st) : Multiset MergedEnt)
      = e ::ₘ ↑(stateEnts
          { iters := st.iters.set idx [],
            heap := st.heap.erase (e, idx), lastKey := lk }) := by
    show (↑(st.heap.map Prod.fst ++ st.iters.flatten) : Multiset MergedEnt)
      = e ::ₘ ↑((st.heap.erase (e, idx)).map Prod.fst ++ (st.iters.set idx []).flatten)
    rw [← Multiset.coe_add, ← Multiset.coe_add]
    exact step_ms_nil st.heap st.iters e idx hmem hidx hv
  refine ⟨⟨?_, ?_, ?_, ?_, ?_, ?_⟩, hse⟩
  · intro p hp
    show p.2 < (st.iters.set idx []).length
    rw [List.length_set]
    exact hlen p (List.mem_of_mem_erase hp)
  · intro p hp x hx
    have hx2 : x ∈ (st.iters.set idx []).getD p.2 [] := hx
    rw [getD_set_ne _ _ _ _ _ (fun h => hne p hp h.symm)] at hx2
    exact hprec p (List.mem_of_mem_erase hp) x hx2
  · exact List.Nodup.sublist (List.Sublist.map _ (List.erase_sublist _ _)) hnodup
  · intro i hi hnone
    have hi2 : i < (st.iters.set idx []).length := hi
    rw [List.length_set] at hi2
    show (st.iters.set idx []).getD i [] = []
    by_cases hii : i = idx
    · subst hii
      exact getD_set_self _ _ _ _ (by omega)
    · rw [getD_set_ne _ _ _ _ _ (fun h => hii h.symm)]
      apply hempty i hi2
      intro p hp
      by_cases hpb : p = (e, idx)
      · rw [hpb]
        exact fun h => hii h.symm
      · exact hnone p ((hnd.mem_erase_iff).mpr ⟨hpb, hp⟩)
  · intro l hl
    have hl2 : l ∈ st.iters.set idx [] := hl
    rcases List.mem_or_eq_of_mem_set hl2 with h | h
    · exact hsorted l h
    · rw [h]
      exact List.Pairwise.nil
  · have hperm : stateEnts st |>.Perm
        (e :: stateEnts
          { iters := st.iters.set idx [],
            heap := st.heap.erase (e, idx), lastKey := lk }) := by
      rw [← Multiset.coe_eq_coe, ← Multiset.cons_coe]
      exact hse
    have hall := (List.Perm.pairwise_iff (fun h => distKS_symm h) hperm).mp hdist
    exact (List.pairwise_cons.mp hall).2

theorem step_inv_cons (st : MergedIterState) (e h0 : MergedEnt) (t0 : List MergedEnt)
    (idx : Nat) (lk : Option (List Nat))
    (hinv : MergedInv st) (hmem : (e, idx) ∈ st.heap)
    (hv : st.iters.getD idx [] = h0 :: t0) :
    MergedInv { iters := st.iters.set idx t0,
                heap := (h0, idx) :: st.heap.erase (e, idx), lastKey := lk }
    ∧ (↑(stateEnts st) : Multiset MergedEnt)
        = e ::ₘ ↑(stateEnts
            { iters := st.iters.set idx t0,
              heap := (h0, idx) :: st.heap.erase (e, idx), lastKey := lk }) := by
  obtain ⟨hlen, hprec, hnodup, hempty, hsorted, hdist⟩ := hinv
  have hidx : idx < st.iters.length := hlen _ hmem
  have hne := erase_snd_ne st.heap e idx hnodup hmem
  have hnd : st.heap.Nodup := List.Nodup.of_map Prod.snd hnodup
  have hsrc : (h0 :: t0).Pairwise mergedBefore := by
    have := hsorted _ (getD_mem st.iters idx [] hidx)
    rwa [hv] at this
  have hse : (↑(stateEnts st) : Multiset MergedEnt)
      = e ::ₘ ↑(stateEnts
          { iters := st.iters.set idx t0,
            heap := (h0, idx) :: st.heap.erase (e, idx), lastKey := lk }) := by
    show (↑(st.heap.map Prod.fst ++ st.iters.flatten) : Multiset MergedEnt)
      = e ::ₘ ↑(((h0, idx) :: st.heap.erase (e, idx)).map Prod.fst
          ++ (st.iters.set idx t0).flatten)
    rw [← Multiset.coe_add, ← Multiset.coe_add]
    exact step_ms_cons st.heap st.iters e h0 t0 idx hmem hidx hv
  refine ⟨⟨?_, ?_, ?_, ?_, ?_, ?_⟩, hse⟩
  · intro p hp
    show p.2 < (st.iters.set idx t0).length
    rw [List.length_set]
    rcases List.mem_cons.mp hp with rfl | hp2
    · exact hidx
    · exact hlen p (List.mem_of_mem_erase hp2)
  · intro p hp x hx
    have hx2 : x ∈ (st.iters.set idx t0).getD p.2 [] := hx
    rcases List.mem_cons.mp hp with rfl | hp2
    · rw [getD_set_self _ _ _ _ (by omega)] at hx2
      exact (List.pairwise_cons.mp hsrc).1 x hx2
    · rw [getD_set_ne _ _ _ _ _ (fun h => hne p hp2 h.symm)] at hx2
      exact hprec p (List.mem_of_mem_erase hp2) x hx2
  · show (((h0, idx) :: st.heap.erase (e, idx)).map Prod.snd).Nodup
    rw [List.map_cons, List.nodup_cons]
    constructor
    · intro hin
      obtain ⟨p, hp, hp2⟩ := List.mem_map.mp hin
      exact hne p hp hp2
    · exact List.Nodup.sublist (List.Sublist.map _ (List.erase_sublist _ _)) hnodup
  · intro i hi hnone
    have hi2 : i < (st.iters.set idx t0).length := hi
    rw [List.length_set] at hi2
    show (st.iters.set idx t0).getD i [] = []
    by_cases hii : i = idx
    · subst hii
      exact absurd rfl (hnone (h0, i) (List.mem_cons_self _ _))
    · rw [getD_set_ne _ _ _ _ _ (fun h => hii h.symm)]
      apply hempty i hi2
      intro p hp
      by_cases hpb : p = (e, idx)
      · rw [hpb]
        exact fun h => hii h.symm
      · exact hnone p (List.mem_cons_of_mem _ ((hnd.mem_erase_iff).mpr ⟨hpb, hp⟩))
  · intro l hl
    have hl2 : l ∈ st.iters.set idx t0 := hl
    rcases List.mem_or_eq_of_mem_set hl2 with h | h
    · exact hsorted l h
    · rw [h]
      exact (List.pairwise_cons.mp hsrc).2
  · have hperm : stateEnts st |>.Perm
        (e :: stateEnts
          { iters := st.iters.set idx t0,
            heap := (h0, idx) :: st.heap.erase (e, idx), lastKey := lk }) := by
      rw [← Multiset.coe_eq_coe, ← Multiset.cons_coe]
      exact hse
    have hall := (List.Perm.pairwise_iff (fun h => distKS_symm h) hperm).mp hdist
    exact (List.pairwise_cons.mp hall).2

theorem build_L (st st2 : MergedIterState) (e : MergedEnt) (L2 : List MergedEnt)
    (hdist : (stateEnts st).Pairwise distKS)
    (hse : (↑(stateEnts st) : Multiset MergedEnt) = e ::ₘ ↑(stateEnts st2))
    (hweakall : ∀ y ∈ stateEnts st, mergedWeak e y)
    (hms2 : (↑(stateEnts st2) : Multiset MergedEnt) = ↑L2)
    (hsort2 : L2.Pairwise mergedBefore) :
    (↑(stateEnts st) : Multiset MergedEnt) = ↑(e :: L2)
    ∧ (e :: L2).Pairwise mergedBefore := by
  have hperm : (stateEnts st).Perm (e :: stateEnts st2) := by
    rw [← Multiset.coe_eq_coe, ← Multiset.cons_coe]
    exact hse
  have hall := (List.Perm.pairwise_iff (fun h => distKS_symm h) hperm).mp hdist
  constructor
  · rw [hse, hms2, Multiset.cons_coe]
  · rw [List.pairwise_cons]
    refine ⟨?_, hsort2⟩
    intro y hy
    have hy2 : y ∈ stateEnts st2 := by
      have hyms : y ∈ (↑L2 : Multiset MergedEnt) := Multiset.mem_coe.mpr hy
      rw [← hms2] at hyms
      exact Multiset.mem_coe.mp hyms
    have hymem : y ∈ stateEnts st := hperm.mem_iff.mpr (List.mem_cons_of_mem e hy2)
    exact mergedWeak_strict (hweakall y hymem) ((List.pairwise_cons.mp hall).1 y hy2)

theorem mergedRunAux_spec :
    ∀ (fuel : Nat) (st : MergedIterState), MergedInv st → mergedTotal st < fuel →
      ∃ L : List MergedEnt,
        (↑(stateEnts st) : Multiset MergedEnt) = ↑L
        ∧ L.Pairwise mergedBefore
        ∧ mergedRunAux fuel st = equalFilter st.lastKey L := by
  intro fuel
  induction fuel with
  | zero =>
    intro st _ h
    omega
  | succ fuel ih =>
    intro st hinv htot
    cases hheap : st.heap with
    | nil =>
      have hflat : st.iters.flatten = [] := by
        rw [List.flatten_eq_nil_iff]
        intro l hl
        obtain ⟨j, hj, heq⟩ := List.mem_iff_getElem.mp hl
        have h0 := hinv.2.2.2.1 j hj (by rw [hheap]; intro p hp; simp at hp)
        rw [List.getD_eq_getElem _ _ hj, heq] at h0
        exact h0
      refine ⟨[], ?_, List.Pairwise.nil, ?_⟩
      · simp [stateEnts, hheap, hflat]
      · unfold mergedRunAux
        rw [hheap]
        simp [heapPop, equalFilter]
    | cons x rest =>
      have hne2 : st.heap ≠ [] := by
        rw [hheap]
        simp
      obtain ⟨b, hpop, hbmem, hbweak⟩ := heapPop_spec st.heap hne2
      obtain ⟨e, idx⟩ := b
      have hweakall : ∀ y ∈ stateEnts st, mergedWeak e y :=
        pop_weak_all st e hinv.2.1 hinv.2.2.2.1 hbweak
      have hdist := hinv.2.2.2.2.2
      cases hv : st.iters.getD idx [] with
      | nil =>
        cases hlk : st.lastKey with
        | none =>
          obtain ⟨hinv2, hse⟩ := step_inv_nil st e idx (some e.key) hinv hbmem hv
          have hcard := congrArg Multiset.card hse
          simp only [Multiset.coe_card, Multiset.card_cons, stateEnts_length] at hcard
          obtain ⟨L2, hms2, hsort2, hrun2⟩ := ih _ hinv2 (by omega)
          obtain ⟨hms, hsort⟩ := build_L st _ e L2 hdist hse hweakall hms2 hsort2
          refine ⟨e :: L2, hms, hsort, ?_⟩
          unfold mergedRunAux
          simp only [hpop, hv, hlk, List.head?_nil, List.tail_nil]
          rw [hrun2]
          simp [equalFilter]
        | some k =>
          by_cases hkey : k = e.key
          · subst hkey
            obtain ⟨hinv2, hse⟩ := step_inv_nil st e idx (some e.key) hinv hbmem hv
            have hcard := congrArg Multiset.card hse
            simp only [Multiset.coe_card, Multiset.card_cons, stateEnts_length] at hcard
            obtain ⟨L2, hms2, hsort2, hrun2⟩ := ih _ hinv2 (by omega)
            obtain ⟨hms, hsort⟩ := build_L st _ e L2 hdist hse hweakall hms2 hsort2
            refine ⟨e :: L2, hms, hsort, ?_⟩
            unfold mergedRunAux
            simp only [hpop, hv, hlk, List.head?_nil, List.tail_nil]
            rw [if_pos trivial]
            rw [hrun2]
            simp [equalFilter]
          · obtain ⟨hinv2, hse⟩ := step_inv_nil st e idx (some e.key) hinv hbmem hv
            have hcard := congrArg Multiset.card hse
            simp only [Multiset.coe_card, Multiset.card_cons, stateEnts_length] at hcard
            obtain ⟨L2, hms2, hsort2, hrun2⟩ := ih _ hinv2 (by omega)
            obtain ⟨hms, hsort⟩ := build_L st _ e L2 hdist hse hweakall hms2 hsort2
            refine ⟨e :: L2, hms, hsort, ?_⟩
            unfold mergedRunAux
            simp only [hpop, hv, hlk, List.head?_nil, List.tail_nil]
            rw [if_neg hkey]
            rw [hrun2]
            simp only [equalFilter]
            rw [if_neg (fun h => hkey (Option.some.inj h))]
      | cons h0 t0 =>
        cases hlk : st.lastKey with
        | none =>
          obtain ⟨hinv2, hse⟩ := step_inv_cons st e h0 t0 idx (some e.key) hinv hbmem hv
          have hcard := congrArg Multiset.card hse
          simp only [Multiset.coe_card, Multiset.card_cons, stateEnts_length] at hcard
          obtain ⟨L2, hms2, hsort2, hrun2⟩ := ih _ hinv2 (by omega)
          obtain ⟨hms, hsort⟩ := build_L st _ e L2 hdist hse hweakall hms2 hsort2
          refine ⟨e :: L2, hms, hsort, ?_⟩
          unfold mergedRunAux
          simp only [hpop, hv, hlk, List.head?_cons, List.tail_cons]
          rw [hrun2]
          simp [equalFilter]
        | some k =>
          by_cases hkey : k = e.key
          · subst hkey
            obtain ⟨hinv2, hse⟩ := step_inv_cons st e h0 t0 idx (some e.key) hinv hbmem hv
            have hcard := congrArg Multiset.card hse
            simp only [Multiset.coe_card, Multiset.card_cons, stateEnts_length] at hcard
            obtain ⟨L2, hms2, hsort2, hrun2⟩ := ih _ hinv2 (by omega)
            obtain ⟨hms, hsort⟩ := build_L st _ e L2 hdist hse hweakall hms2 hsort2
            refine ⟨e :: L2, hms, hsort, ?_⟩
            unfold mergedRunAux
            simp only [hpop, hv, hlk, List.head?_cons, List.tail_cons]
            rw [if_pos trivial]
            rw [hrun2]
            simp [equalFilter]
          · obtain ⟨hinv2, hse⟩ := step_inv_cons st e h0 t0 idx (some e.key) hinv hbmem hv
            have hcard := congrArg Multiset.card hse
            simp only [Multiset.coe_card, Multiset.card_cons, stateEnts_length] at hcard
            obtain ⟨L2, hms2, hsort2, hrun2⟩ := ih _ hinv2 (by omega)
            obtain ⟨hms, hsort⟩ := build_L st _ e L2 hdist hse hweakall hms2 hsort2
            refine ⟨e :: L2, hms, hsort, ?_⟩
            unfold mergedRunAux
            simp only [hpop, hv, hlk, List.head?_cons, List.tail_cons]
            rw [if_neg hkey]
            rw [hrun2]
            simp only [equalFilter]
            rw [if_neg (fun h => hkey (Option.some.inj h))]

theorem equalFilter_spec :
    ∀ (L : List MergedEnt), L.Pairwise mergedBefore →
    ∀ opt : Option (List Nat),
      (∀ k, opt = some k → ∀ x ∈ L, k < x.key ∨ k = x.key) →
      (equalFilter opt L).Sublist L
      ∧ (equalFilter opt L).Pairwise (fun a b => a.key < b.key)
      ∧ (∀ e ∈ equalFilter opt L, ∀ k, opt = some k → e.key ≠ k)
      ∧ (∀ e ∈ equalFilter opt L, ∀ x ∈ L, x.key = e.key → x.seq ≤ e.seq)
      ∧ (∀ x ∈ L, (∀ k, opt = some k → x.key ≠ k) →
          ∃ e ∈ equalFilter opt L, e.key = x.key) := by
  intro L
  induction L with
  | nil =>
    intro _ opt _
    exact ⟨by simp [equalFilter], by simp [equalFilter], by simp [equalFilter],
      by simp [equalFilter], by simp [equalFilter]⟩
  | cons a L ih =>
    intro hL opt hopt
    obtain ⟨hhead, htail⟩ := List.pairwise_cons.mp hL
    by_cases hskip : opt = some a.key
    · have hopt2 : ∀ k, opt = some k → ∀ x ∈ L, k < x.key ∨ k = x.key := by
        intro k hk x hx
        exact hopt k hk x (List.mem_cons_of_mem _ hx)
      obtain ⟨s1, s2, s3, s4, s5⟩ := ih htail opt hopt2
      simp only [equalFilter]
      rw [if_pos hskip]
      refine ⟨s1.trans (List.sublist_cons_self a L), s2, s3, ?_, ?_⟩
      · intro e he x hx hxe
        rcases List.mem_cons.mp hx with rfl | hx2
        · exact absurd hxe.symm (s3 e he x.key hskip)
        · exact s4 e he x hx2 hxe
      · intro x hx hxk
        rcases List.mem_cons.mp hx with rfl | hx2
        · exact absurd rfl (hxk x.key hskip)
        · exact s5 x hx2 hxk
    · have hopt2 : ∀ k, (some a.key : Option (List Nat)) = some k →
          ∀ x ∈ L, k < x.key ∨ k = x.key := by
        intro k hk x hx
        have hk2 : k = a.key := (Option.some.inj hk).symm
        subst hk2
        rcases hhead x hx with h | ⟨h, -⟩
        · exact Or.inl h
        · exact Or.inr h
      obtain ⟨s1, s2, s3, s4, s5⟩ := ih htail (some a.key) hopt2
      simp only [equalFilter]
      rw [if_neg hskip]
      refine ⟨List.Sublist.cons₂ a s1, ?_, ?_, ?_, ?_⟩
      · rw [List.pairwise_cons]
        refine ⟨?_, s2⟩
        intro y hy
        have hyL : y ∈ L := s1.subset hy
        have hyk := s3 y hy a.key rfl
        rcases hhead y hyL with h | ⟨h, -⟩
        · exact h
        · exact absurd h.symm hyk
      · intro e he k hk
        rcases List.mem_cons.mp he with rfl | he2
        · intro hek
          exact hskip (by rw [hk, hek])
        · intro hek
          have hke := hopt k hk a (List.mem_cons_self _ _)
          have heL : e ∈ L := s1.subset he2
          have hek2 := s3 e he2 a.key rfl
          have hlt : a.key < e.key := by
            rcases hhead e heL with h | ⟨h, -⟩
            · exact h
            · exact absurd h.symm hek2
          rcases hke with h | h
          · exact absurd (hek ▸ lt_trans h hlt) (lt_irrefl _)
          · exact hek2 (by rw [hek, h])
      · intro e he x hx hxe
        rcases List.mem_cons.mp he with rfl | he2
        · rcases List.mem_cons.mp hx with rfl | hx2
          · exact le_refl _
          · rcases hhead x hx2 with h | ⟨-, h⟩
            · exact absurd hxe (ne_of_gt h)
            · exact le_of_lt h
        · rcases List.mem_cons.mp hx with rfl | hx2
          · exact absurd hxe.symm (s3 e he2 x.key rfl)
          · exact s4 e he2 x hx2 hxe
      · intro x hx hxk
        rcases List.mem_cons.mp hx with rfl | hx2
        · exact ⟨x, List.mem_cons_self _ _, rfl⟩
        · by_cases hxa : x.key = a.key
          · exact ⟨a, List.mem_cons_self _ _, hxa.symm⟩
          · obtain ⟨e, he, hee⟩ := s5 x hx2
              (fun k hk => (Option.some.inj hk) ▸ hxa)
            exact ⟨e, List.mem_cons_of_mem _ he, hee⟩

theorem flatten_visible_sublist (snap : Nat) (iters : List (List MergedEnt)) :
    ((iters.map (visibleUnder snap)).flatten).Sublist iters.flatten := by
  induction iters with
  | nil => simp
  | cons a as ih =>
    simp only [List.map_cons, List.flatten_cons]
    exact List.Sublist.append (List.filter_sublist a) ih

theorem mem_flatten_visible (snap : Nat) (iters : List (List MergedEnt)) (x : MergedEnt) :
    x ∈ (iters.map (visibleUnder snap)).flatten ↔ (x ∈ iters.flatten ∧ x.seq ≤ snap) := by
  constructor
  · intro hx
    obtain ⟨l, hl, hxl⟩ := List.mem_flatten.mp hx
    obtain ⟨l0, hl0, rfl⟩ := List.mem_map.mp hl
    have hxf : x ∈ l0.filter (fun e => decide (e.seq ≤ snap)) := hxl
    obtain ⟨hx0, hpred⟩ := List.mem_filter.mp hxf
    exact ⟨List.mem_flatten.mpr ⟨l0, hl0, hx0⟩, by simpa using hpred⟩
  · rintro ⟨hx, hs⟩
    obtain ⟨l0, hl0, hx0⟩ := List.mem_flatten.mp hx
    refine List.mem_flatten.mpr ⟨visibleUnder snap l0, List.mem_map_of_mem _ hl0, ?_⟩
    show x ∈ l0.filter (fun e => decide (e.seq ≤ snap))
    exact List.mem_filter.mpr ⟨hx0, by simpa using hs⟩

/-- C2: over any set of per-source streams, each sorted ascending by user key
    with ties broken by descending sequence, and with no (key, seq) collision
    across streams, the MergedIter scan over the snapshot-filtered sources
    yields strictly ascending (hence unique) user keys; every yielded item is
    one of the input items, is visible under the snapshot, and carries the
    largest sequence among the snapshot-visible versions of its key; and every
    key with a visible version is yielded (so a scan over non-empty visible
    input is non-empty). -/
theorem claim_C2_mergedScan (snap : Nat) (iters : List (List MergedEnt))
    (hsort : ∀ l ∈ iters, l.Pairwise mergedBefore)
    (hdist : iters.flatten.Pairwise distKS) :
    (mergedOutput (iters.map (visibleUnder snap))).Pairwise (fun a b => a.key < b.key)
    ∧ (∀ e ∈ mergedOutput (iters.map (visibleUnder snap)),
        e ∈ iters.flatten ∧ e.seq ≤ snap
        ∧ ∀ x ∈ iters.flatten, x.key = e.key → x.seq ≤ snap → x.seq ≤ e.seq)
    ∧ (∀ x ∈ iters.flatten, x.seq ≤ snap →
        ∃ e ∈ mergedOutput (iters.map (visibleUnder snap)), e.key = x.key) := by
  have hsort2 : ∀ l ∈ iters.map (visibleUnder snap), l.Pairwise mergedBefore := by
    intro l hl
    obtain ⟨l0, hl0, rfl⟩ := List.mem_map.mp hl
    exact List.Pairwise.filter _ (hsort l0 hl0)
  have hsub : ((iters.map (visibleUnder snap)).flatten).Sublist iters.flatten :=
    flatten_visible_sublist snap iters
  have hdist2 : ((iters.map (visibleUnder snap)).flatten).Pairwise distKS :=
    List.Pairwise.sublist hsub hdist
  have hinv := mergedInit_inv (iters.map (visibleUnder snap)) hsort2 hdist2
  have hms0 := mergedInit_ms (iters.map (visibleUnder snap))
  obtain ⟨L, hmsL, hsortL, hrun⟩ := mergedRunAux_spec
    (mergedTotal (mergedInit (iters.map (visibleUnder snap))) + 1)
    (mergedInit (iters.map (visibleUnder snap))) hinv (by omega)
  have hLperm : ((iters.map (visibleUnder snap)).flatten).Perm L := by
    rw [← Multiset.coe_eq_coe, ← hms0]
    exact hmsL
  have hout : mergedOutput (iters.map (visibleUnder snap)) = equalFilter none L := hrun
  obtain ⟨s1, s2, s3, s4, s5⟩ := equalFilter_spec L hsortL none
    (fun k hk => Option.noConfusion hk)
  refine ⟨?_, ?_, ?_⟩
  · rw [hout]
    exact s2
  · intro e he
    rw [hout] at he
    have heL : e ∈ L := s1.subset he
    have heF : e ∈ (iters.map (visibleUnder snap)).flatten := hLperm.mem_iff.mpr heL
    have heB := (mem_flatten_visible snap iters e).mp heF
    refine ⟨heB.1, heB.2, ?_⟩
    intro x hx hxe hxs
    have hxF : x ∈ (iters.map (visibleUnder snap)).flatten :=
      (mem_flatten_visible snap iters x).mpr ⟨hx, hxs⟩
    have hxL : x ∈ L := hLperm.mem_iff.mp hxF
    exact s4 e he x hxL hxe
  · intro x hx hxs
    have hxF : x ∈ (iters.map (visibleUnder snap)).flatten :=
      (mem_flatten_visible snap iters x).mpr ⟨hx, hxs⟩
    have hxL : x ∈ L := hLperm.mem_iff.mp hxF
    obtain ⟨e, he, hee⟩ := s5 x hxL (fun k hk => Option.noConfusion hk)
    rw [hout]
    exact ⟨e, he, hee⟩

/-- C2 witness: the concrete two-source scan at snapshot sequence 4. -/
theorem claim_C2_mergedScan_witness :
    (∀ l ∈ c2Sources, l.Pairwise mergedBefore)
    ∧ c2Sources.flatten.Pairwise distKS
    ∧ ((mergedOutput (c2Sources.map (visibleUnder 4))).Pairwise
          (fun a b => a.key < b.key)
      ∧ (∀ e ∈ mergedOutput (c2Sources.map (visibleUnder 4)),
          e ∈ c2Sources.flatten ∧ e.seq ≤ 4
          ∧ ∀ x ∈ c2Sources.flatten, x.key = e.key → x.seq ≤ 4 → x.seq ≤ e.seq)
      ∧ (∀ x ∈ c2Sources.flatten, x.seq ≤ 4 →
          ∃ e ∈ mergedOutput (c2Sources.map (visibleUnder 4)), e.key = x.key)) :=
  ⟨by decide, by decide, claim_C2_mergedScan 4 c2Sources (by decide) (by decide)⟩

end NanoKV
